import Mathlib

/-!
Verification of the Tausa Municipal Archive OCR transcription pipeline.

Python code is shallowly embedded: Python strings become `List Char`,
machine integers become `Int`/`Nat`, Python floats become `ℚ` (exact
rational arithmetic standing in for IEEE doubles), and fallible code
returns `Option`.  Each definition is translated from one function of
the source tree; the file then proves or refutes the frozen claims
about the program.
-/

set_option maxHeartbeats 1000000

namespace TausaOCR

/-- Python strings modelled as lists of Unicode scalar values. -/
abbrev Str := List Char

/-- Shorthand turning a Lean string literal into the `Str` model. -/
def strL (s : String) : Str := s.toList

/-- Model of Python `str.strip()` with no argument: remove whitespace
from both ends. -/
def pyStrip (s : Str) : Str :=
  ((s.dropWhile Char.isWhitespace).reverse.dropWhile Char.isWhitespace).reverse

/-- Model of Python `s.split(c)` for a one-character separator:
`"".split(c) = [""]`, and every occurrence of `c` separates fields. -/
def splitOnChar (c : Char) : Str → List Str
  | [] => [[]]
  | x :: xs =>
    if x = c then [] :: splitOnChar c xs
    else
      match splitOnChar c xs with
      | [] => [[x]]
      | t :: ts => (x :: t) :: ts

/-- Joining a list of fields with a one-character separator
(`c.join` in Python). -/
def intercalateChar (c : Char) : List Str → Str
  | [] => []
  | [t] => t
  | t :: ts => t ++ c :: intercalateChar c ts

/-- Model of Python `s.split(c, maxsplit=1)`: at most one split, the
remainder keeps its further separators. -/
def split1 (c : Char) (s : Str) : List Str :=
  match splitOnChar c s with
  | [] => []
  | [t] => [t]
  | t :: ts => [t, intercalateChar c ts]

/-- Numeric value of an ASCII digit character. -/
def digitVal (c : Char) : Nat := c.toNat - '0'.toNat

/-- Value of a list of ASCII digit characters, most significant first. -/
def digitsVal (l : Str) : Nat := l.foldl (fun a c => 10 * a + digitVal c) 0

/-- Digit run as accepted by Python `int()` after the optional sign:
nonempty, starts and ends with a digit, single underscores allowed
only between digits. -/
def udDigits : Str → Bool
  | [] => false
  | [c] => c.isDigit
  | c :: d :: rest => c.isDigit && (if d = '_' then udDigits rest else udDigits (d :: rest))

/-- Model of Python `int(s)` on ASCII decimal notation: strip
whitespace, optional sign, then an underscore-grouped digit run;
`none` models the `ValueError`. -/
def pyInt (s : Str) : Option Int :=
  let t := pyStrip s
  if t = [] then none
  else if t.headI = '+' then
    if udDigits t.tail then some (Int.ofNat (digitsVal (t.tail.filter Char.isDigit)))
    else none
  else if t.headI = '-' then
    if udDigits t.tail then some (-(Int.ofNat (digitsVal (t.tail.filter Char.isDigit))))
    else none
  else if udDigits t then some (Int.ofNat (digitsVal (t.filter Char.isDigit)))
  else none

/-- Model of Python `range(lo, hi)` as a list of integers. -/
def pyRange (lo hi : Int) : List Int :=
  (List.range (hi - lo).toNat).map (fun i : Nat => lo + (i : Int))

/-- Insert an integer into an ascending duplicate-free list, keeping it
ascending and duplicate-free. -/
def insertSorted (x : Int) : List Int → List Int
  | [] => [x]
  | y :: ys => if x < y then x :: y :: ys else if x = y then y :: ys else y :: insertSorted x ys

/-- Model of Python `sorted(set(l))`: the ascending enumeration of the
distinct elements. -/
def sortedDedup (l : List Int) : List Int := l.foldl (fun acc x => insertSorted x acc) []

/-- One token of `parse_page_range` in `src/src/ocr/pdf_processor.py`
(lines 58-64): strip, then either a hyphenated span split with
`maxsplit=1` or a single 1-based number; the contributed zero-based
indices, `none` on a `ValueError`. -/
def tokenIndices (total_pages : Int) (token : Str) : Option (List Int) :=
  let t := pyStrip token
  if '-' ∈ t then
    match split1 '-' t with
    | [s, e] => do
      let a ← pyInt s
      let b ← pyInt e
      pure (pyRange (a - 1) (min b total_pages))
    | _ => none
  else
    (pyInt t).map (fun n => [n - 1])

/-- Sequencing of the per-token contributions: the Python loop stops at
the first failing token. -/
def collectTokens (f : Str → Option (List Int)) : List Str → Option (List Int)
  | [] => some []
  | t :: ts => do
    let a ← f t
    let rest ← collectTokens f ts
    pure (a ++ rest)

/-- `parse_page_range` from `src/src/ocr/pdf_processor.py`: split the
expression on commas, accumulate every token's indices into a set, and
return its sorted enumeration. -/
def parse_page_range (page_range : Str) (total_pages : Int) : Option (List Int) :=
  (collectTokens (tokenIndices total_pages) (splitOnChar ',' page_range)).map sortedDedup

/-- One token of the standalone `parse_page_range` in
`src/transcribe.py` (lines 92-98): identical except that a hyphenated
token is split on every hyphen and unpacked into exactly two parts
(`start, end = part.split("-")`), so three or more parts raise. -/
def tokenIndicesStandalone (total_pages : Int) (token : Str) : Option (List Int) :=
  let t := pyStrip token
  if '-' ∈ t then
    match splitOnChar '-' t with
    | [s, e] => do
      let a ← pyInt s
      let b ← pyInt e
      pure (pyRange (a - 1) (min b total_pages))
    | _ => none
  else
    (pyInt t).map (fun n => [n - 1])

/-- The standalone script's `parse_page_range` (`src/transcribe.py`):
collect into a list, then `sorted(set(pages))`. -/
def parse_page_range_standalone (page_range : Str) (total_pages : Int) : Option (List Int) :=
  (collectTokens (tokenIndicesStandalone total_pages) (splitOnChar ',' page_range)).map sortedDedup

/-! ## Pipeline data model and coordinator (`src/src/ocr/pipeline.py`) -/

/-- `PageResult` dataclass: one transcribed page. -/
structure PageResult where
  page_number : Int
  transcription : Str
  processing_time_seconds : ℚ
deriving DecidableEq, Repr

/-- `PipelineResult` dataclass: the aggregate of one document run. -/
structure PipelineResult where
  source_file : Str
  document_title : Str
  model : Str
  total_pages : Int
  processed_pages : List PageResult
  started_at : Str
deriving DecidableEq, Repr

/-- Model of Python `round(x, 2)`: nearest multiple of 1/100, ties to
the even multiple. -/
def pyRound2 (q : ℚ) : ℚ :=
  let s : ℚ := q * 100
  let f : ℤ := ⌊s⌋
  let r : ℚ := s - (f : ℚ)
  let n : ℤ :=
    if r < 1 / 2 then f
    else if 1 / 2 < r then f + 1
    else if f % 2 = 0 then f else f + 1
  (n : ℚ) / 100

/-- Model of Python list indexing `l[i]`: negative indices count from
the end, out-of-bounds raises (`none`). -/
def pyIndex (l : List α) (i : Int) : Option α :=
  if 0 ≤ i then l.get? i.toNat
  else if 0 ≤ i + l.length then l.get? (i + l.length).toNat
  else none

/-- Index selection of `TranscriptionPipeline.run` (pipeline.py lines
78-82): Python truthiness makes `None` and the empty string both fall
back to all pages. -/
def selectIndices (page_range : Option Str) (total_pages : Nat) : Option (List Int) :=
  match page_range with
  | none => some ((List.range total_pages).map (fun i : Nat => (i : Int)))
  | some pr =>
    if pr = [] then some ((List.range total_pages).map (fun i : Nat => (i : Int)))
    else parse_page_range pr (total_pages : Int)

/-- The per-page loop of `TranscriptionPipeline.run` (pipeline.py lines
94-117): index into the page list, transcribe, and append a
`PageResult` with the rounded elapsed time.  The transcription text
and the wall-clock timings are external inputs, passed as functions. -/
def runLoop (transcribeF : α → Int → Str) (elapsedF : Int → ℚ) (pages : List α) :
    List Int → PipelineResult → Option PipelineResult
  | [], acc => some acc
  | idx :: rest, acc => do
    let img ← pyIndex pages idx
    let page : PageResult :=
      { page_number := idx + 1
        transcription := transcribeF img (idx + 1)
        processing_time_seconds := pyRound2 (elapsedF idx) }
    runLoop transcribeF elapsedF pages rest
      { acc with processed_pages := acc.processed_pages ++ [page] }

/-- `TranscriptionPipeline.run`: load (empty documents raise), select
indices, loop.  `pages` stands for the images decoded by
`load_pdf_pages`. -/
def run (pages : List α) (source_file document_title model started_at : Str)
    (page_range : Option Str) (transcribeF : α → Int → Str) (elapsedF : Int → ℚ) :
    Option PipelineResult :=
  if pages.isEmpty then none
  else
    (selectIndices page_range pages.length).bind fun indices =>
      runLoop transcribeF elapsedF pages indices
        { source_file := source_file
          document_title := document_title
          model := model
          total_pages := (pages.length : Int)
          processed_pages := []
          started_at := started_at }

/-! ## Transcription client (`src/src/ocr/transcriber.py`) -/

/-- Outcome of one call to the external messages API: a successful
text response, an `anthropic.RateLimitError`, or another
`anthropic.APIError` carrying its display text. -/
inductive ApiOutcome where
  | success (text : Str)
  | rateLimited
  | apiError (detail : Str)

/-- Rendering of a Python integer in an f-string. -/
def intToStr (i : Int) : Str := (toString i).toList

/-- The final-attempt error marker of `PageTranscriber.transcribe`
(transcriber.py line 94). -/
def errorMarker (page_number : Int) (detail : Str) : Str :=
  strL "[TRANSCRIPTION ERROR — page " ++ intToStr page_number ++ strL ": " ++
    detail ++ strL "]"

/-- The defensive fallback marker after the loop (transcriber.py line
97). -/
def exhaustedMarker (retry_attempts : Nat) (page_number : Int) : Str :=
  strL "[TRANSCRIPTION FAILED — page " ++ intToStr page_number ++ strL ": all " ++
    intToStr retry_attempts ++ strL " attempts exhausted]"

/-- The retry loop of `PageTranscriber.transcribe` (transcriber.py
lines 62-97), unrolled over the remaining attempts; `behavior n` is
the service's response to attempt `n` (1-based) and the second
component records every `time.sleep` duration in order. -/
def transcribeGo (behavior : Nat → ApiOutcome) (retry_attempts : Nat) (base_delay : Int)
    (page_number : Int) : Nat → List Int → Str × List Int
  | 0, waits => (exhaustedMarker retry_attempts page_number, waits)
  | remaining + 1, waits =>
    let attempt := retry_attempts - remaining
    match behavior attempt with
    | .success text => (text, waits)
    | .rateLimited =>
        transcribeGo behavior retry_attempts base_delay page_number remaining
          (waits ++ [base_delay * (attempt : Int)])
    | .apiError detail =>
        if attempt = retry_attempts then (errorMarker page_number detail, waits)
        else
          transcribeGo behavior retry_attempts base_delay page_number remaining
            (waits ++ [base_delay])

/-- `PageTranscriber.transcribe` for a given service behavior: the
returned text together with the backoff waits performed.  The delay
setting `RETRY_DELAY_SECONDS` is an `int` in `settings.py`, so waits
are modelled as integers. -/
def transcribe (behavior : Nat → ApiOutcome) (retry_attempts : Nat) (base_delay : Int)
    (page_number : Int) : Str × List Int :=
  transcribeGo behavior retry_attempts base_delay page_number retry_attempts []

/-! ## Result store (`src/src/storage/repository.py`) -/

/-- `_TXT_SEPARATOR`: 70 box-drawing dashes. -/
def txtSeparator : Str := List.replicate 70 '─'

/-- `_HEADER_TEMPLATE` instantiated as in `save_progress`. -/
def headerText (document_title model : Str) (dpi : Int) : Str :=
  strL "TRANSCRIPCIÓN OCR — " ++ document_title ++
    strL "\nMunicipio de Tausa, Cundinamarca, Colombia\nModelo: " ++ model ++
    strL " | DPI: " ++ intToStr dpi ++ strL "\n" ++ txtSeparator ++ strL "\n"

/-- The five lines appended per processed page in `save_progress`
(repository.py lines 61-66). -/
def pageLines (page : PageResult) : List Str :=
  [ '\n' :: txtSeparator,
    strL "PÁGINA " ++ intToStr page.page_number,
    txtSeparator ++ strL "\n",
    page.transcription,
    [] ]

/-- The full text written by `save_progress`: header line followed by
every processed page's banner block, joined with newlines. -/
def save_progress_content (result : PipelineResult) (dpi : Int) : Str :=
  intercalateChar '\n'
    (headerText result.document_title result.model dpi ::
      result.processed_pages.flatMap pageLines)

/-- `save_progress` acting on the state of its output file
(`write_text` fully replaces the contents, whatever was there). -/
def save_progress (result : PipelineResult) (dpi : Int) (_prior : Option Str) : Option Str :=
  some (save_progress_content result dpi)

/-! ## Well-formed range expressions (the spec's vocabulary for C4) -/

/-- The character of a single decimal digit value. -/
def digitCh (d : Nat) : Char := Char.ofNat (48 + d)

/-- Digits of `n`, most significant first, with enough fuel; empty
for zero. -/
def natLitAux : Nat → Nat → Str
  | 0, _ => []
  | fuel + 1, n =>
    if n = 0 then [] else natLitAux fuel (n / 10) ++ [digitCh (n % 10)]

/-- Canonical decimal numeral of a natural number. -/
def natLit (n : Nat) : Str := if n = 0 then ['0'] else natLitAux n n

/-- A well-formed token of a page-range expression, per the spec: a
single 1-based page number, or a hyphenated start-end span. -/
inductive RangeToken where
  | single (n : Nat)
  | span (a b : Nat)

/-- Text of one well-formed token. -/
def renderToken : RangeToken → Str
  | .single n => natLit n
  | .span a b => natLit a ++ '-' :: natLit b

/-- Text of a whole comma-separated range expression. -/
def renderExpr (ts : List RangeToken) : Str := intercalateChar ',' (ts.map renderToken)

/-- The indices a well-formed token denotes per the spec: a single
page `n` denotes index `n-1`; a span `a-b` denotes the indices from
`a-1` up to (exclusively) `min b totalPages`. -/
def tokenSem (total : Int) : RangeToken → List Int
  | .single n => [(n : Int) - 1]
  | .span a b => pyRange ((a : Int) - 1) (min (b : Int) total)

/-! ## Image preparer (`src/src/ocr/image_processor.py`) -/

/-- The PIL resampling filters that appear in the source tree. -/
inductive Resample where
  | lanczos
  | bicubic
deriving DecidableEq, Repr

/-- Operations PIL performs on an image; the pixel transformations
themselves live in the external library, so the model records them as
a trace. -/
inductive ImgOp where
  | resized (w h : Nat) (filter : Resample)
  | convertedRGB
  | contrast (factor : ℚ)
  | sharpness (factor : ℚ)
deriving DecidableEq, Repr

/-- A PIL image: its pixel dimensions plus the trace of library
operations applied to it since decoding. -/
structure PILImage where
  width : Nat
  height : Nat
  ops : List ImgOp
deriving DecidableEq, Repr

/-- `Image.resize`: new dimensions, trace extended. -/
def pilResize (img : PILImage) (w h : Nat) (filter : Resample) : PILImage :=
  { width := w, height := h, ops := img.ops ++ [.resized w h filter] }

/-- `_resize_if_needed` (image_processor.py lines 36-50): downscale to
the configured maximum width with LANCZOS when the image is wider,
otherwise return the image unchanged.  Python's float scale factor is
modelled exactly; `int(height * scale)` on the non-negative product is
floor division. -/
def _resize_if_needed (max_width : Nat) (image : PILImage) : PILImage :=
  if image.width ≤ max_width then image
  else pilResize image max_width (image.height * max_width / image.width) .lanczos

/-- `_enhance_for_ocr` (image_processor.py lines 53-68): RGB
conversion, then contrast and sharpness enhancement; dimensions are
unchanged and the trace is extended. -/
def _enhance_for_ocr (contrast_factor sharpness_factor : ℚ) (image : PILImage) : PILImage :=
  { width := image.width, height := image.height,
    ops := image.ops ++
      [.convertedRGB, .contrast contrast_factor, .sharpness sharpness_factor] }

/-- The image file formats used by the two pipeline variants. -/
inductive ImageFormat where
  | png
  | jpeg (quality : Nat)
deriving DecidableEq, Repr

/-- Modelled from the spec: which external image codecs are lossless —
PNG is, JPEG is not (§4.2 "Encode losslessly (not JPEG)"); the codecs
themselves are external PIL collaborators absent from the source. -/
def formatLossless : ImageFormat → Bool
  | .png => true
  | .jpeg _ => false

/-- The serialized image payload, kept symbolic: the format together
with the image it encodes (for the lossless PNG codec the bytes
determine the image exactly). -/
structure EncodedImage where
  format : ImageFormat
  image : PILImage
deriving DecidableEq, Repr

/-- `_encode_to_base64_png` (image_processor.py lines 71-85): the
image serialized with `format="PNG"`; the base64 text layer is a
bijection on the bytes and is left symbolic. -/
def _encode_to_base64_png (image : PILImage) : EncodedImage :=
  { format := .png, image := image }

/-- `prepare_image_for_api` (image_processor.py lines 16-33): resize
if needed, enhance, encode as base64 PNG, and pair with the media type
`image/png`. -/
def prepare_image_for_api (max_width : Nat) (contrast_factor sharpness_factor : ℚ)
    (image : PILImage) : EncodedImage × Str :=
  (_encode_to_base64_png
      (_enhance_for_ocr contrast_factor sharpness_factor
        (_resize_if_needed max_width image)),
    strL "image/png")

/-! ## Structured JSON output (`save_json` of repository.py) -/

/-! JSON values as handled by Python's `json` module; objects keep
their key order (dict insertion order is preserved by `json.dumps`).
`jint` and `jnum` mirror Python's distinction between `int` and
`float` values; floats are modelled as rationals. -/
mutual
inductive Json where
  | jnull
  | jbool (b : Bool)
  | jint (n : Int)
  | jnum (q : ℚ)
  | jstr (s : Str)
  | jarr (items : JsonArr)
  | jobj (members : JsonObj)

inductive JsonArr where
  | nil
  | cons (head : Json) (tail : JsonArr)

inductive JsonObj where
  | nil
  | cons (key : Str) (value : Json) (tail : JsonObj)
end

/-- Lowercase hexadecimal digit. -/
def hexDigit (n : Nat) : Char := if n < 10 then digitCh n else Char.ofNat (87 + n)

/-- How `json.dumps(..., ensure_ascii=False)` renders one character of
a string: quote, backslash and control characters are escaped,
everything else — including every non-ASCII character — is emitted
verbatim. -/
def escapeChar (c : Char) : Str :=
  if c = '"' then ['\\', '"']
  else if c = '\\' then ['\\', '\\']
  else if c = '\n' then ['\\', 'n']
  else if c = '\t' then ['\\', 't']
  else if c = '\r' then ['\\', 'r']
  else if c = Char.ofNat 8 then ['\\', 'b']
  else if c = Char.ofNat 12 then ['\\', 'f']
  else if c.toNat < 32 then
    ['\\', 'u', '0', '0', hexDigit (c.toNat / 16), hexDigit (c.toNat % 16)]
  else [c]

/-- A JSON string literal: quoted, characters escaped. -/
def dumpStr (s : Str) : Str := '"' :: s.flatMap escapeChar ++ ['"']

/-- Decimal rendering of a Python `int`. -/
def jintStr (n : Int) : Str := if n < 0 then '-' :: natLit n.natAbs else natLit n.toNat

/-- Two-digit decimal rendering of `k < 100`. -/
def twoDigits (k : Nat) : Str := [digitCh (k / 10), digitCh (k % 10)]

/-- Decimal rendering of a float whose value is a multiple of 1/100
(every `processing_time_seconds` is a `round(x, 2)` result): integer
part, decimal point, two fractional digits.  Python's `repr` trims
trailing zeros but parses back to the same value, so the difference is
immaterial to the round trip. -/
def centiStr (q : ℚ) : Str :=
  let n : Int := q.num * (100 / (q.den : Int))
  (if n < 0 then ['-'] else []) ++
    natLit (n.natAbs / 100) ++ '.' :: twoDigits (n.natAbs % 100)

/-- Two spaces of indentation per nesting level (`indent=2`). -/
def indentStr (lvl : Nat) : Str := List.replicate (2 * lvl) ' '

/-! `json.dumps(..., ensure_ascii=False, indent=2)` on the modelled
JSON values: objects and arrays put each item on its own indented
line; the key separator is `": "` and the item separator `","` before
each newline. -/
mutual
def dumpJson (lvl : Nat) : Json → Str
  | .jnull => strL "null"
  | .jbool true => strL "true"
  | .jbool false => strL "false"
  | .jint n => jintStr n
  | .jnum q => centiStr q
  | .jstr s => dumpStr s
  | .jarr .nil => strL "[]"
  | .jarr (.cons x xs) =>
      '[' :: '\n' :: indentStr (lvl + 1) ++ dumpJson (lvl + 1) x ++
        dumpItems (lvl + 1) xs ++ '\n' :: indentStr lvl ++ [']']
  | .jobj .nil => ['\x7b', '\x7d']
  | .jobj (.cons k v kvs) =>
      '\x7b' :: '\n' :: indentStr (lvl + 1) ++ dumpStr k ++ ':' :: ' ' ::
        dumpJson (lvl + 1) v ++ dumpMembers (lvl + 1) kvs ++
        '\n' :: indentStr lvl ++ ['\x7d']
termination_by structural v => v

def dumpItems (lvl : Nat) : JsonArr → Str
  | .nil => []
  | .cons x xs =>
      ',' :: '\n' :: indentStr lvl ++ dumpJson lvl x ++ dumpItems lvl xs
termination_by structural v => v

def dumpMembers (lvl : Nat) : JsonObj → Str
  | .nil => []
  | .cons k v kvs =>
      ',' :: '\n' :: indentStr lvl ++ dumpStr k ++ ':' :: ' ' ::
        dumpJson lvl v ++ dumpMembers lvl kvs
termination_by structural v => v
end

/-- JSON whitespace. -/
def skipWs (s : Str) : Str :=
  s.dropWhile (fun c => c = ' ' || c = '\n' || c = '\t' || c = '\r')

/-- One hexadecimal digit of a `\u` escape. -/
def parseHex (c : Char) : Option Nat :=
  if '0' ≤ c ∧ c ≤ '9' then some (c.toNat - 48)
  else if 'a' ≤ c ∧ c ≤ 'f' then some (c.toNat - 87)
  else if 'A' ≤ c ∧ c ≤ 'F' then some (c.toNat - 55)
  else none

/-- The single-character escapes of JSON. -/
def escCode (e : Char) : Option Char :=
  if e = '"' then some '"'
  else if e = '\\' then some '\\'
  else if e = '/' then some '/'
  else if e = 'n' then some '\n'
  else if e = 't' then some '\t'
  else if e = 'r' then some '\r'
  else if e = 'b' then some (Char.ofNat 8)
  else if e = 'f' then some (Char.ofNat 12)
  else none

/-! Modelled from the spec: the string scanner of the external
`json.loads` collaborator — the body of a string literal up to the
closing quote, resolving escapes (surrogate pairing of `\u` escapes is
out of scope: the serializer never emits them for the code points it
escapes). -/
mutual
def parseStrBody : Str → Option (Str × Str)
  | [] => none
  | c :: rest =>
    if c = '"' then some ([], rest)
    else if c = '\\' then parseEscape rest
    else (parseStrBody rest).map (fun p => (c :: p.1, p.2))
termination_by structural s => s

def parseEscape : Str → Option (Str × Str)
  | [] => none
  | e :: rest2 =>
    if e = 'u' then
      match rest2 with
      | h1 :: h2 :: h3 :: h4 :: rest3 => do
        let a ← parseHex h1
        let b ← parseHex h2
        let c2 ← parseHex h3
        let d ← parseHex h4
        (parseStrBody rest3).map
          (fun p => (Char.ofNat (((a * 16 + b) * 16 + c2) * 16 + d) :: p.1, p.2))
      | _ => none
    else
      match escCode e with
      | some d => (parseStrBody rest2).map (fun p => (d :: p.1, p.2))
      | none => none
termination_by structural s => s
end

/-- Negation of a parsed JSON number. -/
def negJson : Json → Json
  | .jint n => .jint (-n)
  | .jnum q => .jnum (-q)
  | v => v

/-- Modelled from the spec: the number scanner of `json.loads` —
digits, then an optional fraction; integer literals come back as
Python ints, fractional ones as floats.  Exponent notation is omitted:
the serializer never emits it. -/
def parseNumBody (s : Str) : Option (Json × Str) :=
  let intPart := s.takeWhile Char.isDigit
  let rest := s.dropWhile Char.isDigit
  if intPart = [] then none
  else if rest.head? = some '.' then
    let frac := rest.tail.takeWhile Char.isDigit
    let rest3 := rest.tail.dropWhile Char.isDigit
    if frac = [] then none
    else some (.jnum ((digitsVal intPart : ℚ) +
      (digitsVal frac : ℚ) / ((10 : ℚ) ^ frac.length)), rest3)
  else some (.jint (Int.ofNat (digitsVal intPart)), rest)

/-- A JSON number with its optional sign. -/
def parseNum (s : Str) : Option (Json × Str) :=
  if s.head? = some '-' then (parseNumBody s.tail).map (fun p => (negJson p.1, p.2))
  else parseNumBody s

/-- Match an expected literal continuation, returning the remainder. -/
def expectStr : Str → Str → Option Str
  | [], s => some s
  | _ :: _, [] => none
  | c :: cs, d :: ds => if c = d then expectStr cs ds else none

/-- Text that cannot extend a preceding number literal: it does not
start with a digit or a decimal point. -/
def numSafe (s : Str) : Prop :=
  ∀ c, s.head? = some c → c.isDigit = false ∧ c ≠ '.'

/-! Modelled from the spec: the recursive-descent value parser of the
external `json.loads` collaborator, with a fuel bound on nesting
depth. -/
mutual
def parseVal : Nat → Str → Option (Json × Str)
  | 0, _ => none
  | fuel + 1, s =>
    match skipWs s with
    | [] => none
    | c :: rest =>
      if c = '"' then (parseStrBody rest).map (fun p => (.jstr p.1, p.2))
      else if c = '\x7b' then
        if (skipWs rest).head? = some '\x7d' then some (.jobj .nil, (skipWs rest).tail)
        else (parseMembers fuel (skipWs rest)).map (fun p => (.jobj p.1, p.2))
      else if c = '[' then
        if (skipWs rest).head? = some ']' then some (.jarr .nil, (skipWs rest).tail)
        else (parseItems fuel (skipWs rest)).map (fun p => (.jarr p.1, p.2))
      else if c = 't' then (expectStr (strL "rue") rest).map (fun r => (.jbool true, r))
      else if c = 'f' then (expectStr (strL "alse") rest).map (fun r => (.jbool false, r))
      else if c = 'n' then (expectStr (strL "ull") rest).map (fun r => (.jnull, r))
      else parseNum (c :: rest)

def parseItems : Nat → Str → Option (JsonArr × Str)
  | 0, _ => none
  | fuel + 1, s => do
    let p ← parseVal fuel s
    if (skipWs p.2).head? = some ',' then do
      let q ← parseItems fuel (skipWs p.2).tail
      pure (JsonArr.cons p.1 q.1, q.2)
    else if (skipWs p.2).head? = some ']' then
      pure (JsonArr.cons p.1 .nil, (skipWs p.2).tail)
    else none

def parseMembers : Nat → Str → Option (JsonObj × Str)
  | 0, _ => none
  | fuel + 1, s =>
    if (skipWs s).head? = some '"' then do
      let kp ← parseStrBody (skipWs s).tail
      if (skipWs kp.2).head? = some ':' then do
        let vp ← parseVal fuel (skipWs kp.2).tail
        if (skipWs vp.2).head? = some ',' then do
          let q ← parseMembers fuel (skipWs vp.2).tail
          pure (JsonObj.cons kp.1 vp.1 q.1, q.2)
        else if (skipWs vp.2).head? = some '\x7d' then
          pure (JsonObj.cons kp.1 vp.1 .nil, (skipWs vp.2).tail)
        else none
      else none
    else none
end

/-! Fuel adequate for a value: at least its nesting-weighted size. -/
mutual
def jsize : Json → Nat
  | .jarr (.cons x xs) => 2 + jsize x + isize xs
  | .jobj (.cons _ v kvs) => 2 + jsize v + msize kvs
  | _ => 1
termination_by structural v => v

def isize : JsonArr → Nat
  | .nil => 0
  | .cons x xs => 1 + jsize x + isize xs
termination_by structural v => v

def msize : JsonObj → Nat
  | .nil => 0
  | .cons _ v kvs => 1 + jsize v + msize kvs
termination_by structural v => v
end

/-! Every float in the value is a multiple of 1/100 (its reduced
denominator divides 100), as `round(x, 2)` guarantees for the values
the pipeline serializes. -/
mutual
def centiJ : Json → Bool
  | .jnum q => decide (q.den ∣ 100)
  | .jarr items => centiArr items
  | .jobj mem => centiObj mem
  | _ => true
termination_by structural v => v

def centiArr : JsonArr → Bool
  | .nil => true
  | .cons v tl => centiJ v && centiArr tl
termination_by structural v => v

def centiObj : JsonObj → Bool
  | .nil => true
  | .cons _ v tl => centiJ v && centiObj tl
termination_by structural v => v
end

/-- Modelled from the spec: `json.loads` on a whole document — parse
one value and require only whitespace after it. -/
def json_loads (s : Str) : Option Json :=
  match parseVal (s.length + 1) s with
  | some (v, rest) => if skipWs rest = [] then some v else none
  | none => none

/-- `asdict(result)` as serialized by `save_json`: one page object
with its three fields in declaration order. -/
def jsonOfPage (p : PageResult) : Json :=
  .jobj (.cons (strL "page_number") (.jint p.page_number)
    (.cons (strL "transcription") (.jstr p.transcription)
      (.cons (strL "processing_time_seconds") (.jnum p.processing_time_seconds) .nil)))

/-- The `processed_pages` array. -/
def jsonArrOfPages : List PageResult → JsonArr
  | [] => .nil
  | p :: ps => .cons (jsonOfPage p) (jsonArrOfPages ps)

/-- `asdict(result)` for the whole `PipelineResult`, fields in
declaration order, as `save_json` passes it to `json.dumps`. -/
def jsonOfResult (r : PipelineResult) : Json :=
  .jobj (.cons (strL "source_file") (.jstr r.source_file)
    (.cons (strL "document_title") (.jstr r.document_title)
      (.cons (strL "model") (.jstr r.model)
        (.cons (strL "total_pages") (.jint r.total_pages)
          (.cons (strL "processed_pages") (.jarr (jsonArrOfPages r.processed_pages))
            (.cons (strL "started_at") (.jstr r.started_at) .nil))))))

/-- The exact text `save_json` writes (repository.py lines 80-85):
`json.dumps(asdict(result), ensure_ascii=False, indent=2)`. -/
def save_json_content (result : PipelineResult) : Str :=
  dumpJson 0 (jsonOfResult result)

/-- Modelled from the spec: reading one page object back out of the
parsed structured document. -/
def pageOfJson : Json → Option PageResult
  | .jobj (.cons k1 (.jint pn) (.cons k2 (.jstr tx) (.cons k3 (.jnum pt) .nil))) =>
    if k1 = strL "page_number" ∧ k2 = strL "transcription" ∧
        k3 = strL "processing_time_seconds" then
      some { page_number := pn, transcription := tx, processing_time_seconds := pt }
    else none
  | _ => none

/-- Modelled from the spec: reading the page array back. -/
def pagesOfJson : JsonArr → Option (List PageResult)
  | .nil => some []
  | .cons v tl => do
    let p ← pageOfJson v
    let ps ← pagesOfJson tl
    pure (p :: ps)

/-- Modelled from the spec: reconstructing a `PipelineResult` from the
parsed structured document (the inverse reader the round-trip property
speaks about; the repository itself only writes). -/
def resultOfJson : Json → Option PipelineResult
  | .jobj (.cons k1 (.jstr sf) (.cons k2 (.jstr dt) (.cons k3 (.jstr mo)
      (.cons k4 (.jint tp) (.cons k5 (.jarr pages) (.cons k6 (.jstr sa) .nil)))))) =>
    if k1 = strL "source_file" ∧ k2 = strL "document_title" ∧ k3 = strL "model" ∧
        k4 = strL "total_pages" ∧ k5 = strL "processed_pages" ∧
        k6 = strL "started_at" then
      (pagesOfJson pages).map (fun ps =>
        { source_file := sf, document_title := dt, model := mo, total_pages := tp,
          processed_pages := ps, started_at := sa })
    else none
  | _ => none

/-- A concrete two-page result, with non-ASCII Spanish text and a
processing time of 13/4 = 3.25 seconds, used to instantiate the
round-trip property. -/
def sampleResult : PipelineResult :=
  { source_file := strL "tausa.pdf"
    document_title := strL "Contratos"
    model := strL "claude-sonnet-4-5"
    total_pages := 2
    processed_pages := [
      { page_number := 1
        transcription := strL "Día primero — Alcaldía"
        processing_time_seconds := Rat.mk' 13 4 },
      { page_number := 2
        transcription := strL "[ilegible]"
        processing_time_seconds := 0 }]
    started_at := strL "2026-01-01T00:00:00" }

/-! ## Step lemmas for the retry loop -/

theorem transcribeGo_success (behavior : Nat → ApiOutcome) (R : Nat) (d p : Int)
    (rem : Nat) (w : List Int) (t : Str) (h : behavior (R - rem) = .success t) :
    transcribeGo behavior R d p (rem + 1) w = (t, w) := by
  rw [transcribeGo, h]

theorem transcribeGo_rateLimited (behavior : Nat → ApiOutcome) (R : Nat) (d p : Int)
    (rem : Nat) (w : List Int) (h : behavior (R - rem) = .rateLimited) :
    transcribeGo behavior R d p (rem + 1) w =
      transcribeGo behavior R d p rem (w ++ [d * ((R - rem : Nat) : Int)]) := by
  rw [transcribeGo, h]

theorem transcribeGo_apiError_mid (behavior : Nat → ApiOutcome) (R : Nat) (d p : Int)
    (rem : Nat) (w : List Int) (e : Str) (h : behavior (R - rem) = .apiError e)
    (hne : R - rem ≠ R) :
    transcribeGo behavior R d p (rem + 1) w =
      transcribeGo behavior R d p rem (w ++ [d]) := by
  rw [transcribeGo, h]
  simp [hne]

theorem transcribeGo_apiError_final (behavior : Nat → ApiOutcome) (R : Nat) (d p : Int)
    (rem : Nat) (w : List Int) (e : Str) (h : behavior (R - rem) = .apiError e)
    (heq : R - rem = R) :
    transcribeGo behavior R d p (rem + 1) w = (errorMarker p e, w) := by
  rw [transcribeGo, h]
  simp [heq]

theorem transcribeGo_allApiError (behavior : Nat → ApiOutcome) (R : Nat) (d p : Int)
    (e : Nat → Str) (hb : ∀ i, behavior i = .apiError (e i)) :
    ∀ rem, 1 ≤ rem → rem ≤ R → ∀ w : List Int,
      transcribeGo behavior R d p rem w =
        (errorMarker p (e R), w ++ List.replicate (rem - 1) d) := by
  intro rem
  induction rem with
  | zero => omega
  | succ r ih =>
    intro _ hle w
    match r, ih with
    | 0, _ =>
      have hR : R - 0 = R := rfl
      rw [transcribeGo_apiError_final behavior R d p 0 w (e R) (by rw [hR, hb]) hR]
      simp
    | r' + 1, ih =>
      have hne : R - (r' + 1) ≠ R := by omega
      rw [transcribeGo_apiError_mid behavior R d p (r' + 1) w (e (R - (r' + 1)))
          (hb _) hne]
      rw [ih (by omega) (by omega)]
      simp [List.replicate_succ]

/-- C2: with the first two attempts rate-limited and the third
successful, and an attempt cap of at least three, `transcribe` returns
the successful text after waits of `baseDelay*1` then `baseDelay*2`
(linear backoff); and rate-limited attempts consume the attempt cap
exactly like any other attempt — with a cap of two the same behavior
already exhausts all attempts. -/
theorem C2_linear_backoff_rate_limit (behavior : Nat → ApiOutcome) (N : Nat) (d p : Int)
    (t : Str) (hN : 3 ≤ N) (h1 : behavior 1 = .rateLimited)
    (h2 : behavior 2 = .rateLimited) (h3 : behavior 3 = .success t) :
    transcribe behavior N d p = (t, [d * 1, d * 2]) ∧
    transcribe behavior 2 d p = (exhaustedMarker 2 p, [d * 1, d * 2]) := by
  constructor
  · obtain ⟨m, rfl⟩ : ∃ m, N = m + 3 := ⟨N - 3, by omega⟩
    show transcribeGo behavior (m + 3) d p ((m + 2) + 1) [] = _
    rw [transcribeGo_rateLimited behavior (m + 3) d p (m + 2) [] (by
      rw [show m + 3 - (m + 2) = 1 by omega, h1])]
    rw [show m + 3 - (m + 2) = 1 by omega]
    show transcribeGo behavior (m + 3) d p ((m + 1) + 1) _ = _
    rw [transcribeGo_rateLimited behavior (m + 3) d p (m + 1) _ (by
      rw [show m + 3 - (m + 1) = 2 by omega, h2])]
    rw [show m + 3 - (m + 1) = 2 by omega]
    show transcribeGo behavior (m + 3) d p (m + 1) _ = _
    rw [transcribeGo_success behavior (m + 3) d p m _ t (by
      rw [show m + 3 - m = 3 by omega, h3])]
    norm_num
  · show transcribeGo behavior 2 d p (1 + 1) [] = _
    rw [transcribeGo_rateLimited behavior 2 d p 1 [] (by norm_num [h1])]
    show transcribeGo behavior 2 d p (0 + 1) _ = _
    rw [transcribeGo_rateLimited behavior 2 d p 0 _ (by norm_num [h2])]
    rw [transcribeGo]
    norm_num

/-- Witness for C2 at a concrete behavior, cap 3, delay 5, page 1. -/
theorem C2_linear_backoff_rate_limit_witness :
    transcribe (fun n => if n ≤ 2 then .rateLimited else .success (strL "ok")) 3 5 1 =
      (strL "ok", [5 * 1, 5 * 2]) ∧
    transcribe (fun n => if n ≤ 2 then .rateLimited else .success (strL "ok")) 2 5 1 =
      (exhaustedMarker 2 1, [5 * 1, 5 * 2]) :=
  C2_linear_backoff_rate_limit _ 3 5 1 (strL "ok") (by norm_num)
    (by norm_num) (by norm_num) (by norm_num)

/-- C3: when every one of the `N ≥ 1` allowed attempts fails with a
transient (non-rate-limit) service error, `transcribe` returns a
marker string embedding the page number and the final error detail
instead of raising (the model is a total function into text), and
waits the fixed unscaled `baseDelay` between the `N-1` non-final
failed attempts. -/
theorem C3_retry_exhaustion (behavior : Nat → ApiOutcome) (N : Nat) (d p : Int)
    (e : Nat → Str) (hN : 1 ≤ N) (hb : ∀ i, behavior i = .apiError (e i)) :
    transcribe behavior N d p = (errorMarker p (e N), List.replicate (N - 1) d) ∧
    List.IsInfix (intToStr p) (transcribe behavior N d p).1 ∧
    List.IsInfix (e N) (transcribe behavior N d p).1 := by
  have hmain : transcribe behavior N d p =
      (errorMarker p (e N), List.replicate (N - 1) d) := by
    show transcribeGo behavior N d p N [] = _
    rw [transcribeGo_allApiError behavior N d p e hb N hN le_rfl []]
    simp
  refine ⟨hmain, ?_, ?_⟩
  · rw [hmain]
    exact ⟨strL "[TRANSCRIPTION ERROR — page ", strL ": " ++ e N ++ strL "]", by
      simp [errorMarker]⟩
  · rw [hmain]
    exact ⟨strL "[TRANSCRIPTION ERROR — page " ++ intToStr p ++ strL ": ", strL "]", by
      simp [errorMarker]⟩

/-- Witness for C3 at a concrete always-failing behavior, cap 3. -/
theorem C3_retry_exhaustion_witness :
    transcribe (fun _ => .apiError (strL "boom")) 3 5 7 =
      (errorMarker 7 (strL "boom"), List.replicate 2 5) ∧
    List.IsInfix (intToStr 7) (transcribe (fun _ => .apiError (strL "boom")) 3 5 7).1 ∧
    List.IsInfix (strL "boom") (transcribe (fun _ => .apiError (strL "boom")) 3 5 7).1 :=
  C3_retry_exhaustion (fun _ => .apiError (strL "boom")) 3 5 7 (fun _ => strL "boom")
    (by norm_num) (fun _ => rfl)

/-- C6: `save_progress` is a deterministic full overwrite: the file
state it leaves does not depend on the prior contents (so it is not an
append), calling it a second time with the unchanged result reproduces
the byte-identical state, and the contents are the header followed by
the processed pages' banner blocks. -/
theorem C6_save_progress_idempotent (result : PipelineResult) (dpi : Int)
    (prior other : Option Str) :
    save_progress result dpi (save_progress result dpi prior) =
      save_progress result dpi prior ∧
    save_progress result dpi prior = save_progress result dpi other ∧
    save_progress result dpi prior = some (save_progress_content result dpi) :=
  ⟨rfl, rfl, rfl⟩

example : parse_page_range (strL "1,3,5-7") 10 = some [0, 2, 4, 5, 6] := by decide
example : parse_page_range (strL "8-100") 10 = some [7, 8, 9] := by decide
example : parse_page_range (strL "abc") 10 = none := by decide
example : parse_page_range (strL "1--5") 10 = some [] := by decide
example : parse_page_range_standalone (strL "1--5") 10 = none := by decide
example : parse_page_range (strL "0-10") 10 =
    some [-1, 0, 1, 2, 3, 4, 5, 6, 7, 8, 9] := by decide

example :
    (run (List.replicate 10 ()) (strL "f") (strL "t") (strL "m") (strL "d")
        (some (strL "0-10")) (fun _ _ => []) (fun _ => 0)).map
      (fun r => r.processed_pages.length) = some 11 := by decide

example :
    transcribe (fun n => if n ≤ 2 then .rateLimited else .success (strL "ok")) 3 5 1 =
      (strL "ok", [5, 10]) := by decide

example :
    transcribe (fun _ => .apiError (strL "boom")) 3 5 7 =
      (errorMarker 7 (strL "boom"), [5, 5]) := by decide

/-! ## Lemmas on the Python string primitives -/

theorem splitOnChar_ne_nil (c : Char) (l : Str) : splitOnChar c l ≠ [] := by
  induction l with
  | nil => simp [splitOnChar]
  | cons x xs ih =>
    rw [splitOnChar]
    split
    · simp
    · cases h : splitOnChar c xs with
      | nil => simp
      | cons t ts => simp

theorem splitOnChar_of_not_mem {c : Char} {l : Str} (h : c ∉ l) : splitOnChar c l = [l] := by
  induction l with
  | nil => rfl
  | cons x xs ih =>
    have hx : ¬ x = c := fun e => h (by simp [e])
    have hxs : c ∉ xs := fun hm => h (by simp [hm])
    rw [splitOnChar, if_neg hx, ih hxs]

theorem splitOnChar_append {c : Char} {l r : Str} (h : c ∉ l) :
    splitOnChar c (l ++ c :: r) = l :: splitOnChar c r := by
  induction l with
  | nil => simp [splitOnChar]
  | cons x xs ih =>
    have hx : ¬ x = c := fun e => h (by simp [e])
    have hxs : c ∉ xs := fun hm => h (by simp [hm])
    rw [List.cons_append, splitOnChar, if_neg hx, ih hxs]

theorem splitOnChar_length (c : Char) (l : Str) :
    (splitOnChar c l).length = l.count c + 1 := by
  induction l with
  | nil => simp [splitOnChar]
  | cons x xs ih =>
    rw [splitOnChar]
    by_cases hx : x = c
    · subst hx
      simp [List.count_cons, ih]
    · cases h : splitOnChar c xs with
      | nil => exact absurd h (splitOnChar_ne_nil c xs)
      | cons t ts =>
        rw [h] at ih
        simp only [if_neg hx, List.length_cons, List.count_cons] at *
        simp [hx, Ne.symm]
        omega

theorem not_mem_of_mem_splitOnChar (c : Char) (l : Str) :
    ∀ t ∈ splitOnChar c l, c ∉ t := by
  induction l with
  | nil =>
    intro t ht
    simp [splitOnChar] at ht
    simp [ht]
  | cons x xs ih =>
    intro t ht
    rw [splitOnChar] at ht
    by_cases hx : x = c
    · rw [if_pos hx] at ht
      rcases List.mem_cons.mp ht with rfl | htail
      · simp
      · exact ih t htail
    · rw [if_neg hx] at ht
      cases h : splitOnChar c xs with
      | nil => exact absurd h (splitOnChar_ne_nil c xs)
      | cons u us =>
        rw [h] at ht
        rcases List.mem_cons.mp ht with rfl | htail
        · intro hc
          rcases List.mem_cons.mp hc with rfl | hcu
          · exact hx rfl
          · exact ih u (by rw [h]; exact List.mem_cons_self u us) hcu
        · exact ih t (by rw [h]; exact List.mem_cons_of_mem _ htail)

theorem split1_of_not_mem {c : Char} {l : Str} (h : c ∉ l) : split1 c l = [l] := by
  rw [split1, splitOnChar_of_not_mem h]

theorem split1_of_two {c : Char} {l a b : Str} (h : splitOnChar c l = [a, b]) :
    split1 c l = [a, b] := by
  rw [split1, h]
  rfl

theorem dropWhile_eq_self_of (p : Char → Bool) (l : Str) (h : ∀ x ∈ l, p x = false) :
    l.dropWhile p = l := by
  cases l with
  | nil => rfl
  | cons x xs =>
    rw [List.dropWhile_cons, h x (List.mem_cons_self x xs)]
    simp

theorem pyStrip_eq_self {l : Str} (h : ∀ x ∈ l, x.isWhitespace = false) : pyStrip l = l := by
  unfold pyStrip
  rw [dropWhile_eq_self_of _ _ h,
    dropWhile_eq_self_of _ _ (fun x hx => h x (List.mem_reverse.mp hx)),
    List.reverse_reverse]

/-! ## Lemmas on decimal numerals and `pyInt` -/

theorem digitCh_props {d : Nat} (h : d < 10) :
    (digitCh d).isDigit = true ∧ (digitCh d).isWhitespace = false ∧
    digitCh d ≠ '-' ∧ digitCh d ≠ '+' ∧ digitCh d ≠ ',' ∧ digitCh d ≠ '_' ∧
    digitVal (digitCh d) = d := by
  interval_cases d <;> exact ⟨by decide, by decide, by decide, by decide, by decide,
    by decide, by decide⟩

theorem natLitAux_ne_nil {fuel n : Nat} (h0 : n ≠ 0) (hf : n ≤ fuel) :
    natLitAux fuel n ≠ [] := by
  cases fuel with
  | zero => omega
  | succ f =>
    rw [natLitAux, if_neg h0]
    simp

theorem natLit_ne_nil (n : Nat) : natLit n ≠ [] := by
  unfold natLit
  split
  · simp
  · next h => exact natLitAux_ne_nil h le_rfl

theorem mem_natLitAux : ∀ fuel n c, c ∈ natLitAux fuel n →
    ∃ d, d < 10 ∧ c = digitCh d := by
  intro fuel
  induction fuel with
  | zero =>
    intro n c hc
    simp [natLitAux] at hc
  | succ f ih =>
    intro n c hc
    rw [natLitAux] at hc
    by_cases h0 : n = 0
    · rw [if_pos h0] at hc
      simp at hc
    · rw [if_neg h0] at hc
      rcases List.mem_append.mp hc with h1 | h2
      · exact ih (n / 10) c h1
      · exact ⟨n % 10, Nat.mod_lt n (by norm_num), by simpa using h2⟩

theorem mem_natLit {n : Nat} {c : Char} (h : c ∈ natLit n) : ∃ d, d < 10 ∧ c = digitCh d := by
  unfold natLit at h
  split at h
  · exact ⟨0, by norm_num, by simpa using h⟩
  · exact mem_natLitAux n n c h

theorem natLit_all_digit {n : Nat} : ∀ c ∈ natLit n, c.isDigit = true := by
  intro c hc
  obtain ⟨d, hd, rfl⟩ := mem_natLit hc
  exact (digitCh_props hd).1

theorem natLit_no_ws {n : Nat} : ∀ c ∈ natLit n, c.isWhitespace = false := by
  intro c hc
  obtain ⟨d, hd, rfl⟩ := mem_natLit hc
  exact (digitCh_props hd).2.1

theorem natLit_no_hyphen {n : Nat} : '-' ∉ natLit n := by
  intro h
  obtain ⟨d, hd, hc⟩ := mem_natLit h
  exact (digitCh_props hd).2.2.1 hc.symm

theorem natLit_no_comma {n : Nat} : ',' ∉ natLit n := by
  intro h
  obtain ⟨d, hd, hc⟩ := mem_natLit h
  exact (digitCh_props hd).2.2.2.2.1 hc.symm

theorem udDigits_of_all_digit : ∀ l : Str, l ≠ [] → (∀ c ∈ l, c.isDigit = true) →
    udDigits l = true := by
  intro l
  induction l with
  | nil => simp
  | cons c tl ih =>
    intro _ hall
    cases tl with
    | nil => simpa [udDigits] using hall c (List.mem_cons_self _ _)
    | cons d rest =>
      have hd : d.isDigit = true := hall d (by simp)
      have hne : ¬ d = '_' := by
        intro h
        rw [h] at hd
        exact absurd hd (by decide)
      rw [udDigits]
      simp only [if_neg hne]
      rw [hall c (by simp), ih (by simp) (fun x hx => hall x (List.mem_cons_of_mem _ hx))]
      simp

theorem digitsVal_append_digit (l : Str) (c : Char) :
    digitsVal (l ++ [c]) = 10 * digitsVal l + digitVal c := by
  simp [digitsVal, List.foldl_append]

theorem digitsVal_natLitAux : ∀ fuel n, n ≤ fuel → digitsVal (natLitAux fuel n) = n := by
  intro fuel
  induction fuel with
  | zero =>
    intro n h
    have h0 : n = 0 := by omega
    simp [natLitAux, h0, digitsVal]
  | succ f ih =>
    intro n h
    rw [natLitAux]
    by_cases h0 : n = 0
    · simp [h0, digitsVal]
    · rw [if_neg h0, digitsVal_append_digit,
        ih (n / 10) (by
          have : n / 10 < n := Nat.div_lt_self (by omega) (by norm_num)
          omega),
        (digitCh_props (Nat.mod_lt n (by norm_num))).2.2.2.2.2.2]
      omega

theorem digitsVal_natLit (n : Nat) : digitsVal (natLit n) = n := by
  unfold natLit
  split
  · next h => simp [h, digitsVal, digitVal]
  · exact digitsVal_natLitAux n n le_rfl

theorem pyInt_natLit (n : Nat) : pyInt (natLit n) = some (n : Int) := by
  have hns : pyStrip (natLit n) = natLit n := pyStrip_eq_self natLit_no_ws
  have hhead : (natLit n).headI.isDigit = true := by
    cases hl : natLit n with
    | nil => exact absurd hl (natLit_ne_nil n)
    | cons c rest => simpa using natLit_all_digit c (by rw [hl]; simp)
  have hcp : ¬ (natLit n).headI = '+' := by
    intro h
    rw [h] at hhead
    exact absurd hhead (by decide)
  have hcm : ¬ (natLit n).headI = '-' := by
    intro h
    rw [h] at hhead
    exact absurd hhead (by decide)
  simp only [pyInt, hns]
  rw [if_neg (natLit_ne_nil n), if_neg hcp, if_neg hcm,
    if_pos (udDigits_of_all_digit _ (natLit_ne_nil n) natLit_all_digit),
    List.filter_eq_self.mpr (fun a ha => natLit_all_digit a ha), digitsVal_natLit]
  rfl

/-! ## Lemmas on ranges, sorted deduplication and token collection -/

theorem mem_pyRange {lo hi i : Int} : i ∈ pyRange lo hi ↔ lo ≤ i ∧ i < hi := by
  simp only [pyRange, List.mem_map, List.mem_range]
  constructor
  · rintro ⟨k, hk, rfl⟩
    omega
  · intro h
    exact ⟨(i - lo).toNat, by omega, by omega⟩

theorem mem_insertSorted (x a : Int) : ∀ l : List Int,
    (a ∈ insertSorted x l ↔ a = x ∨ a ∈ l) := by
  intro l
  induction l with
  | nil => simp [insertSorted]
  | cons y ys ih =>
    rw [insertSorted]
    by_cases h1 : x < y
    · rw [if_pos h1]
      simp only [List.mem_cons]
    · by_cases h2 : x = y
      · subst h2
        rw [if_neg h1, if_pos rfl]
        simp only [List.mem_cons]
        tauto
      · rw [if_neg h1, if_neg h2]
        simp only [List.mem_cons, ih]
        tauto

theorem sorted_insertSorted (x : Int) : ∀ l : List Int,
    l.Sorted (· < ·) → (insertSorted x l).Sorted (· < ·) := by
  intro l
  induction l with
  | nil =>
    intro _
    simp [insertSorted]
  | cons y ys ih =>
    intro hs
    rw [List.sorted_cons] at hs
    obtain ⟨hy, hys⟩ := hs
    rw [insertSorted]
    by_cases h1 : x < y
    · rw [if_pos h1, List.sorted_cons]
      refine ⟨?_, ?_⟩
      · intro b hb
        rcases List.mem_cons.mp hb with rfl | hbys
        · exact h1
        · exact h1.trans (hy b hbys)
      · rw [List.sorted_cons]
        exact ⟨hy, hys⟩
    · by_cases h2 : x = y
      · rw [if_neg h1, if_pos h2, List.sorted_cons]
        exact ⟨hy, hys⟩
      · rw [if_neg h1, if_neg h2, List.sorted_cons]
        refine ⟨?_, ih hys⟩
        intro b hb
        rcases (mem_insertSorted x b ys).mp hb with rfl | hbys
        · omega
        · exact hy b hbys

theorem sortedDedup_go (l : List Int) : ∀ acc : List Int, acc.Sorted (· < ·) →
    (l.foldl (fun acc x => insertSorted x acc) acc).Sorted (· < ·) ∧
    ∀ a : Int, (a ∈ l.foldl (fun acc x => insertSorted x acc) acc ↔ a ∈ acc ∨ a ∈ l) := by
  induction l with
  | nil =>
    intro acc h
    refine ⟨h, fun a => ?_⟩
    simp
  | cons x xs ih =>
    intro acc h
    rw [List.foldl_cons]
    obtain ⟨hs, hm⟩ := ih (insertSorted x acc) (sorted_insertSorted x acc h)
    refine ⟨hs, fun a => ?_⟩
    rw [hm a, mem_insertSorted]
    simp only [List.mem_cons]
    tauto

theorem sortedDedup_sorted (l : List Int) : (sortedDedup l).Sorted (· < ·) :=
  (sortedDedup_go l [] (by simp)).1

theorem mem_sortedDedup {l : List Int} {a : Int} : a ∈ sortedDedup l ↔ a ∈ l := by
  have h := (sortedDedup_go l [] (by simp)).2 a
  simpa [sortedDedup] using h

theorem collectTokens_congr (f g : Str → Option (List Int)) :
    ∀ ts : List Str, (∀ t ∈ ts, f t = g t) → collectTokens f ts = collectTokens g ts := by
  intro ts
  induction ts with
  | nil => intro _; rfl
  | cons t ts ih =>
    intro h
    rw [collectTokens, collectTokens, h t (by simp), ih (fun u hu => h u (by simp [hu]))]

theorem collectTokens_none (f : Str → Option (List Int)) :
    ∀ ts : List Str, ∀ t ∈ ts, f t = none → collectTokens f ts = none := by
  intro ts
  induction ts with
  | nil => simp
  | cons u us ih =>
    intro t ht hf
    rcases List.mem_cons.mp ht with rfl | htail
    · rw [collectTokens, hf]
      rfl
    · rw [collectTokens]
      cases hu : f u with
      | none => rfl
      | some a =>
        rw [ih t htail hf]
        rfl

theorem collectTokens_map_some {β : Type} (f : Str → Option (List Int)) (r : β → Str)
    (g : β → List Int) : ∀ ts : List β, (∀ t ∈ ts, f (r t) = some (g t)) →
    collectTokens f (ts.map r) = some (ts.flatMap g) := by
  intro ts
  induction ts with
  | nil => intro _; rfl
  | cons t ts ih =>
    intro h
    rw [List.map_cons, collectTokens, h t (by simp), ih (fun u hu => h u (by simp [hu]))]
    rfl

/-! ## The page selector on well-formed tokens -/

theorem renderToken_no_comma (t : RangeToken) : ',' ∉ renderToken t := by
  cases t with
  | single n => exact natLit_no_comma
  | span a b =>
    intro h
    rw [renderToken] at h
    rcases List.mem_append.mp h with h1 | h2
    · exact natLit_no_comma h1
    · rcases List.mem_cons.mp h2 with h3 | h4
      · exact absurd h3 (by decide)
      · exact natLit_no_comma h4

theorem renderToken_no_ws (t : RangeToken) : ∀ c ∈ renderToken t, c.isWhitespace = false := by
  cases t with
  | single n => exact natLit_no_ws
  | span a b =>
    intro c hc
    rw [renderToken] at hc
    rcases List.mem_append.mp hc with h1 | h2
    · exact natLit_no_ws c h1
    · rcases List.mem_cons.mp h2 with rfl | h4
      · decide
      · exact natLit_no_ws c h4

theorem tokenIndices_renderToken (total : Int) (t : RangeToken) :
    tokenIndices total (renderToken t) = some (tokenSem total t) := by
  cases t with
  | single n =>
    have hws : pyStrip (natLit n) = natLit n := pyStrip_eq_self natLit_no_ws
    simp only [renderToken, tokenIndices, hws, if_neg natLit_no_hyphen, pyInt_natLit,
      tokenSem]
    rfl
  | span a b =>
    have hws : pyStrip (natLit a ++ '-' :: natLit b) = natLit a ++ '-' :: natLit b :=
      pyStrip_eq_self (renderToken_no_ws (.span a b))
    have hmem : '-' ∈ natLit a ++ '-' :: natLit b := by simp
    have hsplit : split1 '-' (natLit a ++ '-' :: natLit b) = [natLit a, natLit b] :=
      split1_of_two (by
        rw [splitOnChar_append natLit_no_hyphen, splitOnChar_of_not_mem natLit_no_hyphen])
    simp only [renderToken, tokenIndices, hws, if_pos hmem, hsplit, pyInt_natLit, tokenSem]
    rfl

theorem splitOnChar_renderExpr : ∀ ts : List RangeToken, ts ≠ [] →
    splitOnChar ',' (renderExpr ts) = ts.map renderToken := by
  intro ts
  induction ts with
  | nil => simp
  | cons t ts ih =>
    intro _
    cases ts with
    | nil =>
      rw [renderExpr, List.map_cons, List.map_nil, intercalateChar,
        splitOnChar_of_not_mem (renderToken_no_comma t)]
    | cons t2 ts2 =>
      rw [renderExpr, List.map_cons, intercalateChar,
        splitOnChar_append (renderToken_no_comma t), ← renderExpr, ih (by simp)]
      simp

/-- C4: for every well-formed range expression built from
comma-separated tokens that are single page numbers or hyphenated
spans, `parse_page_range` returns the ascending duplicate-free list of
zero-based indices, each span inclusive of its start with its end
clamped to `totalPages`; in particular `"1,3,5-7"` over 10 pages gives
`[0,2,4,5,6]` and `"8-100"` over 10 pages gives `[7,8,9]`. -/
theorem C4_parse_page_range_wellformed (ts : List RangeToken) (total : Int)
    (hne : ts ≠ []) :
    (∃ l, parse_page_range (renderExpr ts) total = some l ∧
      l.Sorted (· < ·) ∧ l.Nodup ∧
      (∀ i : Int, i ∈ l ↔ ∃ t ∈ ts,
        (∃ n, t = RangeToken.single n ∧ i = (n : Int) - 1) ∨
        (∃ a b, t = RangeToken.span a b ∧ (a : Int) - 1 ≤ i ∧ i < min (b : Int) total))) ∧
    parse_page_range (strL "1,3,5-7") 10 = some [0, 2, 4, 5, 6] ∧
    parse_page_range (strL "8-100") 10 = some [7, 8, 9] := by
  refine ⟨?_, by decide, by decide⟩
  rw [parse_page_range, splitOnChar_renderExpr ts hne,
    collectTokens_map_some (tokenIndices total) renderToken (tokenSem total) ts
      (fun t _ => tokenIndices_renderToken total t)]
  refine ⟨sortedDedup (ts.flatMap (tokenSem total)), rfl, sortedDedup_sorted _,
    (sortedDedup_sorted _).nodup, fun i => ?_⟩
  rw [mem_sortedDedup, List.mem_flatMap]
  constructor
  · rintro ⟨t, ht, hi⟩
    refine ⟨t, ht, ?_⟩
    cases t with
    | single n =>
      left
      exact ⟨n, rfl, by simpa [tokenSem] using hi⟩
    | span a b =>
      right
      have h := mem_pyRange.mp (by simpa [tokenSem] using hi)
      exact ⟨a, b, rfl, h.1, h.2⟩
  · rintro ⟨t, ht, hcase⟩
    refine ⟨t, ht, ?_⟩
    rcases hcase with ⟨n, rfl, rfl⟩ | ⟨a, b, rfl, h1, h2⟩
    · simp [tokenSem]
    · simp only [tokenSem]
      exact mem_pyRange.mpr ⟨h1, h2⟩

/-- Witness for C4 at the expression `"1,3,5-7"` over ten pages. -/
theorem C4_parse_page_range_wellformed_witness :
    ∃ l, parse_page_range (renderExpr [RangeToken.single 1, RangeToken.single 3,
      RangeToken.span 5 7]) 10 = some l ∧ l.Sorted (· < ·) ∧ l.Nodup := by
  obtain ⟨⟨l, h1, h2, h3, _⟩, _, _⟩ :=
    C4_parse_page_range_wellformed
      [RangeToken.single 1, RangeToken.single 3, RangeToken.span 5 7] 10 (by simp)
  exact ⟨l, h1, h2, h3⟩

/-! ## Failure behavior of the page selector (C5) -/

theorem tokenIndices_none_single {total : Int} {t : Str} (hns : '-' ∉ pyStrip t)
    (hint : pyInt (pyStrip t) = none) : tokenIndices total t = none := by
  simp only [tokenIndices, if_neg hns, hint]
  rfl

theorem tokenIndices_none_span {total : Int} {t a b : Str} (hmem : '-' ∈ pyStrip t)
    (hsplit : split1 '-' (pyStrip t) = [a, b])
    (hint : pyInt a = none ∨ pyInt b = none) : tokenIndices total t = none := by
  simp only [tokenIndices, if_pos hmem, hsplit]
  rcases hint with h | h
  · rw [h]
    rfl
  · cases ha : pyInt a with
    | none => rfl
    | some x =>
      rw [h]
      rfl

/-- C5 (amended): `parse_page_range` fails whenever some comma token,
after stripping, is hyphen-free and not parseable as an integer (in
particular on `"abc"`), and whenever a hyphenated token has an
unparseable part on either side of its first hyphen.  A token with
more than one hyphen, however, need not fail — see the
counterexample — so failure is *not* guaranteed for every
multi-hyphen token as the claim states. -/
theorem C5_malformed_range_failure (s : Str) (total : Int) :
    (∀ t ∈ splitOnChar ',' s, '-' ∉ pyStrip t → pyInt (pyStrip t) = none →
      parse_page_range s total = none) ∧
    (∀ t ∈ splitOnChar ',' s, ∀ a b : Str, '-' ∈ pyStrip t →
      split1 '-' (pyStrip t) = [a, b] → (pyInt a = none ∨ pyInt b = none) →
      parse_page_range s total = none) ∧
    parse_page_range (strL "abc") total = none := by
  refine ⟨?_, ?_, ?_⟩
  · intro t ht h1 h2
    rw [parse_page_range,
      collectTokens_none _ _ t ht (tokenIndices_none_single h1 h2)]
    rfl
  · intro t ht a b h1 h2 h3
    rw [parse_page_range,
      collectTokens_none _ _ t ht (tokenIndices_none_span h1 h2 h3)]
    rfl
  · rw [parse_page_range,
      collectTokens_none _ _ (strL "abc") (by decide)
        (tokenIndices_none_single (by decide) (by decide))]
    rfl

/-- Witness for C5 at the non-numeric token `"abc"`. -/
theorem C5_malformed_range_failure_witness : parse_page_range (strL "abc") 10 = none :=
  (C5_malformed_range_failure (strL "abc") 10).1 (strL "abc") (by decide) (by decide)
    (by decide)

/-- C5 counterexample: the token `"1--5"` contains two hyphens, yet
`parse_page_range` does not fail on it — `split("-", maxsplit=1)`
yields `("1", "-5")`, both parseable, and `range(0, min(-5, total))`
is empty, so the expression silently selects nothing. -/
theorem C5_counterexample :
    (strL "1--5").count '-' = 2 ∧ parse_page_range (strL "1--5") 10 = some [] :=
  ⟨by decide, by decide⟩

/-! ## Equivalence of the two parser variants (C9) -/

theorem tokenIndices_eq_standalone {total : Int} {t : Str}
    (h : (pyStrip t).count '-' ≤ 1) :
    tokenIndices total t = tokenIndicesStandalone total t := by
  by_cases hm : '-' ∈ pyStrip t
  · have hpos : 0 < (pyStrip t).count '-' := List.count_pos_iff.mpr hm
    have hc1 : (pyStrip t).count '-' = 1 := by omega
    have hlen := splitOnChar_length '-' (pyStrip t)
    rw [hc1] at hlen
    obtain ⟨a, b, hab⟩ : ∃ a b, splitOnChar '-' (pyStrip t) = [a, b] := by
      cases hl : splitOnChar '-' (pyStrip t) with
      | nil =>
        rw [hl] at hlen
        simp at hlen
      | cons u rest =>
        cases rest with
        | nil =>
          rw [hl] at hlen
          simp at hlen
        | cons v rest2 =>
          cases rest2 with
          | nil => exact ⟨u, v, rfl⟩
          | cons w rest3 =>
            rw [hl] at hlen
            simp at hlen
    simp only [tokenIndices, tokenIndicesStandalone, if_pos hm, split1_of_two hab, hab]
  · simp only [tokenIndices, tokenIndicesStandalone, if_neg hm]

/-- C9 (amended): the packaged and the standalone `parse_page_range`
compute the same function — same successes, same values, same
failures — on every expression whose (stripped) tokens each contain at
most one hyphen.  On multi-hyphen tokens they diverge, as the
counterexample shows, so the claim's unrestricted equivalence does not
hold. -/
theorem C9_parsers_agree (s : Str) (total : Int)
    (h : ∀ t ∈ splitOnChar ',' s, (pyStrip t).count '-' ≤ 1) :
    parse_page_range s total = parse_page_range_standalone s total := by
  rw [parse_page_range, parse_page_range_standalone,
    collectTokens_congr _ _ _ (fun t ht => tokenIndices_eq_standalone (h t ht))]

/-- Witness for C9 at the expression `"1,3-5"`. -/
theorem C9_parsers_agree_witness :
    parse_page_range (strL "1,3-5") 10 = parse_page_range_standalone (strL "1,3-5") 10 :=
  C9_parsers_agree (strL "1,3-5") 10 (by decide)

/-- C9 counterexample: on `"1--5"` over ten pages the packaged parser
returns the empty selection while the standalone parser raises
(`start, end = part.split("-")` unpacks three parts), so the two
implementations are not the same function. -/
theorem C9_counterexample :
    parse_page_range (strL "1--5") 10 = some [] ∧
    parse_page_range_standalone (strL "1--5") 10 = none ∧
    parse_page_range (strL "1--5") 10 ≠ parse_page_range_standalone (strL "1--5") 10 :=
  ⟨by decide, by decide, by decide⟩

/-! ## The coordinator's run (C1, C10) -/

theorem pyIndex_lt_of_isSome {α : Type} {l : List α} {i : Int} (h0 : 0 ≤ i)
    (h : (pyIndex l i).isSome = true) : i < (l.length : Int) := by
  rw [pyIndex, if_pos h0] at h
  by_contra hc
  rw [List.get?_eq_none.mpr (by omega)] at h
  simp at h

theorem pyIndex_isSome_of_lt {α : Type} {l : List α} {i : Int} (h0 : 0 ≤ i)
    (h : i < (l.length : Int)) : (pyIndex l i).isSome = true := by
  rw [pyIndex, if_pos h0]
  cases hg : l.get? i.toNat with
  | none =>
    rw [List.get?_eq_none] at hg
    omega
  | some a => rfl

theorem runLoop_success_facts {α : Type} (tF : α → Int → Str) (eF : Int → ℚ)
    (pages : List α) : ∀ (idxs : List Int) (acc res : PipelineResult),
    runLoop tF eF pages idxs acc = some res →
    res.processed_pages.map (fun p => p.page_number) =
      acc.processed_pages.map (fun p => p.page_number) ++ idxs.map (fun i => i + 1) ∧
    ∀ idx ∈ idxs, (pyIndex pages idx).isSome = true := by
  intro idxs
  induction idxs with
  | nil =>
    intro acc res h
    rw [runLoop] at h
    obtain rfl := Option.some.inj h
    simp
  | cons idx rest ih =>
    intro acc res h
    rw [runLoop] at h
    cases hp : pyIndex pages idx with
    | none =>
      rw [hp] at h
      simp at h
    | some img =>
      rw [hp] at h
      simp only [Option.some_bind] at h
      obtain ⟨hmap, hall⟩ := ih _ res h
      constructor
      · rw [hmap]
        simp [List.map_append]
      · intro j hj
        rcases List.mem_cons.mp hj with rfl | hjr
        · rw [hp]
          rfl
        · exact hall j hjr

theorem runLoop_total {α : Type} (tF : α → Int → Str) (eF : Int → ℚ) (pages : List α) :
    ∀ (idxs : List Int) (acc : PipelineResult),
    (∀ idx ∈ idxs, (pyIndex pages idx).isSome = true) →
    ∃ res, runLoop tF eF pages idxs acc = some res := by
  intro idxs
  induction idxs with
  | nil =>
    intro acc _
    exact ⟨acc, rfl⟩
  | cons idx rest ih =>
    intro acc hall
    obtain ⟨img, himg⟩ := Option.isSome_iff_exists.mp (hall idx (by simp))
    rw [runLoop, himg]
    simp only [Option.some_bind]
    exact ih _ (fun j hj => hall j (by simp [hj]))

theorem run_eq_some {α : Type} {pages : List α} {sf dt mo sa : Str} {pr : Option Str}
    {tF : α → Int → Str} {eF : Int → ℚ} {res : PipelineResult}
    (h : run pages sf dt mo sa pr tF eF = some res) :
    ∃ idxs, selectIndices pr pages.length = some idxs ∧
      runLoop tF eF pages idxs
        { source_file := sf, document_title := dt, model := mo,
          total_pages := (pages.length : Int), processed_pages := [], started_at := sa }
        = some res := by
  rw [run] at h
  by_cases he : pages.isEmpty
  · rw [if_pos he] at h
    exact absurd h (by simp)
  · rw [if_neg he] at h
    cases hs : selectIndices pr pages.length with
    | none =>
      rw [hs] at h
      simp at h
    | some idxs =>
      rw [hs] at h
      simp only [Option.some_bind] at h
      exact ⟨idxs, rfl, h⟩

theorem range_cast_sorted (n : Nat) : ((List.range n).map (fun i : Nat => (i : Int))).Sorted (· < ·) :=
  List.Pairwise.map (fun i : Nat => (i : Int))
    (fun a b hab => by
      show (a : Int) < (b : Int)
      exact_mod_cast hab)
    (List.sorted_lt_range n)

theorem selectIndices_sorted {pr : Option Str} {total : Nat} {idxs : List Int}
    (h : selectIndices pr total = some idxs) : idxs.Sorted (· < ·) := by
  cases pr with
  | none =>
    rw [selectIndices] at h
    obtain rfl := Option.some.inj h
    exact range_cast_sorted total
  | some s =>
    rw [selectIndices] at h
    by_cases he : s = []
    · rw [if_pos he] at h
      obtain rfl := Option.some.inj h
      exact range_cast_sorted total
    · rw [if_neg he, parse_page_range] at h
      obtain ⟨l, _, rfl⟩ := Option.map_eq_some'.mp h
      exact sortedDedup_sorted l

/-- C1 (amended): for every completed run, the `pageNumber` fields of
every prefix of `processedPages` are pairwise distinct; and provided
the selected indices are all non-negative (equivalently, no range
token has a value below 1), every prefix of `processedPages` — hence
also the final state — has length at most `totalPages`.  Without that
proviso the length bound is false: see the counterexample, where the
accepted expression `"0-10"` over ten pages completes with eleven
processed pages. -/
theorem C1_processed_pages_invariants {α : Type} (pages : List α) (sf dt mo sa : Str)
    (pr : Option Str) (tF : α → Int → Str) (eF : Int → ℚ) (res : PipelineResult)
    (hrun : run pages sf dt mo sa pr tF eF = some res) :
    (∀ k, ((res.processed_pages.take k).map (fun p => p.page_number)).Nodup) ∧
    (∀ idxs, selectIndices pr pages.length = some idxs → (∀ i ∈ idxs, 0 ≤ i) →
      ∀ k, (res.processed_pages.take k).length ≤ pages.length) := by
  obtain ⟨idxs, hsel, hloop⟩ := run_eq_some hrun
  obtain ⟨hmap, hall⟩ := runLoop_success_facts tF eF pages idxs _ res hloop
  simp only [List.map_nil, List.nil_append] at hmap
  have hnodup : idxs.Nodup := (selectIndices_sorted hsel).nodup
  have hlen : res.processed_pages.length = idxs.length := by
    have h := congrArg List.length hmap
    simpa using h
  constructor
  · intro k
    have hnd : (res.processed_pages.map (fun p => p.page_number)).Nodup := by
      rw [hmap]
      exact hnodup.map (fun a b hab => by omega)
    have hsub : ((res.processed_pages.take k).map (fun p => p.page_number)).Sublist
        (res.processed_pages.map (fun p => p.page_number)) :=
      (List.take_sublist _ _).map _
    exact hsub.nodup hnd
  · intro idxs' hsel' hpos k
    have heq : idxs' = idxs := by
      rw [hsel] at hsel'
      exact (Option.some.inj hsel').symm
    rw [heq] at hpos
    have hmem : ∀ i ∈ idxs.map Int.toNat, i < pages.length := by
      intro i hi
      rcases List.mem_map.mp hi with ⟨j, hj, rfl⟩
      have h0 : 0 ≤ j := hpos j hj
      have hlt : j < (pages.length : Int) := pyIndex_lt_of_isSome h0 (hall j hj)
      omega
    have hndm : (idxs.map Int.toNat).Nodup := by
      refine List.Nodup.map_on ?_ hnodup
      intro a ha b hb hab
      have ha0 : 0 ≤ a := hpos a ha
      have hb0 : 0 ≤ b := hpos b hb
      omega
    have hsubf : (idxs.map Int.toNat).toFinset ⊆ Finset.range pages.length := by
      intro x hx
      rw [List.mem_toFinset] at hx
      rw [Finset.mem_range]
      exact hmem x hx
    have hcard := Finset.card_le_card hsubf
    rw [List.toFinset_card_of_nodup hndm, Finset.card_range, List.length_map] at hcard
    have htake : (res.processed_pages.take k).length ≤ res.processed_pages.length := by
      rw [List.length_take]
      exact min_le_right _ _
    omega

/-- C1 counterexample: the range expression `"0-10"` is accepted by
the Page Selector over a ten-page document and selects the eleven
indices −1 through 9; Python's negative indexing makes the run
complete, so the final `processedPages` holds eleven entries — more
than `totalPages = 10`, refuting `len(processedPages) <= totalPages`. -/
theorem C1_counterexample :
    (run (List.replicate 10 ()) (strL "f") (strL "t") (strL "m") (strL "d")
        (some (strL "0-10")) (fun _ _ => []) (fun _ => 0)).map
      (fun r => r.processed_pages.length) = some 11 ∧ ¬ (11 ≤ 10) :=
  ⟨by decide, by decide⟩

/-- Witness for C1 at a concrete completed run over three pages with
range `"1-3"`. -/
theorem C1_processed_pages_invariants_witness :
    ∃ res, run [(), (), ()] (strL "f") (strL "t") (strL "m") (strL "d")
        (some (strL "1-3")) (fun _ _ => []) (fun _ => 0) = some res ∧
      (∀ k, ((res.processed_pages.take k).map (fun p => p.page_number)).Nodup) ∧
      res.processed_pages.length ≤ 3 := by
  have hs : (run [(), (), ()] (strL "f") (strL "t") (strL "m") (strL "d")
      (some (strL "1-3")) (fun _ _ => []) (fun _ => 0)).isSome = true := by decide
  obtain ⟨res, hres⟩ := Option.isSome_iff_exists.mp hs
  have h := C1_processed_pages_invariants [(), (), ()] (strL "f") (strL "t") (strL "m")
    (strL "d") (some (strL "1-3")) (fun _ _ => []) (fun _ => 0) res hres
  refine ⟨res, hres, h.1, ?_⟩
  have h3 := h.2 [0, 1, 2] (by decide) (by decide) res.processed_pages.length
  simpa [List.take_length] using h3

/-- C10: an empty page-range string is treated exactly like an absent
one — the parser (which would fail on the empty string) is never
invoked, and the run processes all pages 1 through `totalPages` in
ascending order. -/
theorem C10_empty_range_like_absent {α : Type} (pages : List α) (sf dt mo sa : Str)
    (tF : α → Int → Str) (eF : Int → ℚ) (hne : pages ≠ []) :
    run pages sf dt mo sa (some []) tF eF = run pages sf dt mo sa none tF eF ∧
    parse_page_range [] (pages.length : Int) = none ∧
    (run pages sf dt mo sa none tF eF).map
      (fun r => r.processed_pages.map (fun p => p.page_number)) =
      some ((List.range pages.length).map (fun i : Nat => (i : Int) + 1)) := by
  refine ⟨rfl, rfl, ?_⟩
  have hemp : pages.isEmpty = false := by
    cases pages with
    | nil => exact absurd rfl hne
    | cons a l => rfl
  have hall : ∀ idx ∈ (List.range pages.length).map (fun i : Nat => (i : Int)),
      (pyIndex pages idx).isSome = true := by
    intro idx hidx
    rcases List.mem_map.mp hidx with ⟨j, hj, rfl⟩
    rw [List.mem_range] at hj
    refine pyIndex_isSome_of_lt (by omega) (by exact_mod_cast hj)
  obtain ⟨res, hres⟩ := runLoop_total tF eF pages ((List.range pages.length).map (fun i : Nat => (i : Int)))
    { source_file := sf, document_title := dt, model := mo,
      total_pages := (pages.length : Int), processed_pages := [], started_at := sa } hall
  have hrw : run pages sf dt mo sa none tF eF =
      runLoop tF eF pages ((List.range pages.length).map (fun i : Nat => (i : Int)))
        { source_file := sf, document_title := dt, model := mo,
          total_pages := (pages.length : Int), processed_pages := [], started_at := sa } := by
    rw [run, if_neg (by simp [hemp])]
    rfl
  rw [hrw, hres]
  obtain ⟨hmap, _⟩ := runLoop_success_facts tF eF pages _ _ res hres
  simp only [List.map_nil, List.nil_append] at hmap
  rw [Option.map_some', hmap, List.map_map]
  rfl

/-- Witness for C10 over a concrete three-page document. -/
theorem C10_empty_range_like_absent_witness :
    run [(), (), ()] (strL "f") (strL "t") (strL "m") (strL "d") (some []) (fun _ _ => [])
        (fun _ => 0) =
      run [(), (), ()] (strL "f") (strL "t") (strL "m") (strL "d") none (fun _ _ => [])
        (fun _ => 0) ∧
    parse_page_range [] (([(), (), ()] : List Unit).length : Int) = none ∧
    (run [(), (), ()] (strL "f") (strL "t") (strL "m") (strL "d") none (fun _ _ => [])
        (fun _ => 0)).map (fun r => r.processed_pages.map (fun p => p.page_number)) =
      some ((List.range ([(), (), ()] : List Unit).length).map (fun i : Nat => (i : Int) + 1)) :=
  C10_empty_range_like_absent [(), (), ()] (strL "f") (strL "t") (strL "m") (strL "d")
    (fun _ _ => []) (fun _ => 0) (by simp)

/-! ## The image preparer's contract (C8) -/

/-- C8: the Image Preparer encodes the prepared page losslessly as
PNG — never JPEG — paired with the `image/png` media-type tag, and its
resize stage downscales proportionally (both dimensions scaled by the
same factor, height truncated to an integer) with the LANCZOS filter
exactly when the width exceeds the configured maximum, passing the
image through that stage unchanged otherwise. -/
theorem C8_image_preparer (max_width : Nat) (cf sf : ℚ) (image : PILImage) :
    (prepare_image_for_api max_width cf sf image).2 = strL "image/png" ∧
    (prepare_image_for_api max_width cf sf image).1.format = ImageFormat.png ∧
    formatLossless (prepare_image_for_api max_width cf sf image).1.format = true ∧
    (∀ q, formatLossless (ImageFormat.jpeg q) = false) ∧
    (image.width ≤ max_width → _resize_if_needed max_width image = image) ∧
    (max_width < image.width →
      (_resize_if_needed max_width image).width = max_width ∧
      (_resize_if_needed max_width image).height =
        image.height * max_width / image.width ∧
      (_resize_if_needed max_width image).ops = image.ops ++
        [ImgOp.resized max_width (image.height * max_width / image.width)
          Resample.lanczos]) := by
  refine ⟨rfl, rfl, rfl, fun q => rfl, fun h => ?_, fun h => ?_⟩
  · rw [_resize_if_needed, if_pos h]
  · rw [_resize_if_needed, if_neg (by omega)]
    exact ⟨rfl, rfl, rfl⟩

/-- Witness for C8: a 1200-pixel-wide page passes the resize stage
unchanged under the default 1600 maximum, while a 2000-pixel-wide page
is downscaled to 1600×800 with LANCZOS; the payload is PNG-encoded and
tagged `image/png`. -/
theorem C8_image_preparer_witness :
    (prepare_image_for_api 1600 1 1 ⟨1200, 900, []⟩).2 = strL "image/png" ∧
    _resize_if_needed 1600 ⟨1200, 900, []⟩ = ⟨1200, 900, []⟩ ∧
    (_resize_if_needed 1600 ⟨2000, 1000, []⟩).width = 1600 ∧
    (_resize_if_needed 1600 ⟨2000, 1000, []⟩).height = 1000 * 1600 / 2000 ∧
    (_resize_if_needed 1600 ⟨2000, 1000, []⟩).ops =
      [] ++ [ImgOp.resized 1600 (1000 * 1600 / 2000) Resample.lanczos] :=
  ⟨(C8_image_preparer 1600 1 1 ⟨1200, 900, []⟩).1,
   (C8_image_preparer 1600 1 1 ⟨1200, 900, []⟩).2.2.2.2.1 (by decide),
   ((C8_image_preparer 1600 1 1 ⟨2000, 1000, []⟩).2.2.2.2.2 (by decide)).1,
   ((C8_image_preparer 1600 1 1 ⟨2000, 1000, []⟩).2.2.2.2.2 (by decide)).2.1,
   ((C8_image_preparer 1600 1 1 ⟨2000, 1000, []⟩).2.2.2.2.2 (by decide)).2.2⟩

/-! ## String escaping round trip (C7, string layer) -/

theorem parseHex_hexDigit {m : Nat} (h : m < 16) : parseHex (hexDigit m) = some m := by
  interval_cases m <;> decide

theorem escapeChar_eq_self {c : Char} (h32 : 32 ≤ c.toNat) (hq : c ≠ '"') (hb : c ≠ '\\') :
    escapeChar c = [c] := by
  have hn : c ≠ '\n' := by rintro rfl; exact absurd h32 (by decide)
  have ht : c ≠ '\t' := by rintro rfl; exact absurd h32 (by decide)
  have hr : c ≠ '\r' := by rintro rfl; exact absurd h32 (by decide)
  have h8 : c ≠ Char.ofNat 8 := by rintro rfl; exact absurd h32 (by decide)
  have h12 : c ≠ Char.ofNat 12 := by rintro rfl; exact absurd h32 (by decide)
  rw [escapeChar, if_neg hq, if_neg hb, if_neg hn, if_neg ht, if_neg hr, if_neg h8,
    if_neg h12, if_neg (by omega)]

theorem parseStrBody_escape_one (c : Char) (tail : Str) (k : Str × Str)
    (h : parseStrBody tail = some k) :
    parseStrBody (escapeChar c ++ tail) = some (c :: k.1, k.2) := by
  by_cases h1 : c = '"'
  · subst h1
    show (parseStrBody tail).map (fun p => ('"' :: p.1, p.2)) =
      some ('"' :: k.1, k.2)
    rw [h]
    rfl
  by_cases h2 : c = '\\'
  · subst h2
    show (parseStrBody tail).map (fun p => ('\\' :: p.1, p.2)) =
      some ('\\' :: k.1, k.2)
    rw [h]
    rfl
  by_cases h3 : c = '\n'
  · subst h3
    show (parseStrBody tail).map (fun p => ('\n' :: p.1, p.2)) =
      some ('\n' :: k.1, k.2)
    rw [h]
    rfl
  by_cases h4 : c = '\t'
  · subst h4
    show (parseStrBody tail).map (fun p => ('\t' :: p.1, p.2)) =
      some ('\t' :: k.1, k.2)
    rw [h]
    rfl
  by_cases h5 : c = '\r'
  · subst h5
    show (parseStrBody tail).map (fun p => ('\r' :: p.1, p.2)) =
      some ('\r' :: k.1, k.2)
    rw [h]
    rfl
  by_cases h6 : c = Char.ofNat 8
  · subst h6
    show (parseStrBody tail).map (fun p => (Char.ofNat 8 :: p.1, p.2)) =
      some (Char.ofNat 8 :: k.1, k.2)
    rw [h]
    rfl
  by_cases h7 : c = Char.ofNat 12
  · subst h7
    show (parseStrBody tail).map (fun p => (Char.ofNat 12 :: p.1, p.2)) =
      some (Char.ofNat 12 :: k.1, k.2)
    rw [h]
    rfl
  by_cases h32 : c.toNat < 32
  · rw [escapeChar, if_neg h1, if_neg h2, if_neg h3, if_neg h4, if_neg h5, if_neg h6,
      if_neg h7, if_pos h32]
    have e1 : parseHex '0' = some 0 := by decide
    have e2 := parseHex_hexDigit (show c.toNat / 16 < 16 by omega)
    have e3 := parseHex_hexDigit (show c.toNat % 16 < 16 by omega)
    simp [parseStrBody, parseEscape, e1, e2, e3, h]
    rw [show c.toNat / 16 * 16 + c.toNat % 16 = c.toNat by omega, Char.ofNat_toNat]
  · rw [escapeChar_eq_self (by omega) h1 h2]
    rw [parseStrBody.eq_def]
    simp [if_neg h1, if_neg h2, h]

theorem parseStrBody_flatMap : ∀ s rest : Str,
    parseStrBody (s.flatMap escapeChar ++ '"' :: rest) = some (s, rest) := by
  intro s
  induction s with
  | nil =>
    intro rest
    simp [parseStrBody]
  | cons c s' ih =>
    intro rest
    rw [List.flatMap_cons, List.append_assoc,
      parseStrBody_escape_one c _ (s', rest) (ih rest)]

/-! ## Number round trip (C7, number layer) -/

theorem takeWhile_append_all (p : Char → Bool) (rest : Str)
    (hr : ∀ c, rest.head? = some c → p c = false) :
    ∀ l : Str, (∀ c ∈ l, p c = true) →
      (l ++ rest).takeWhile p = l ∧ (l ++ rest).dropWhile p = rest := by
  intro l
  induction l with
  | nil =>
    intro _
    refine ⟨?_, ?_⟩
    · cases rest with
      | nil => rfl
      | cons c cs => simp [List.takeWhile_cons, hr c rfl]
    · cases rest with
      | nil => rfl
      | cons c cs => simp [List.dropWhile_cons, hr c rfl]
  | cons x xs ih =>
    intro hl
    obtain ⟨h1, h2⟩ := ih (fun c hc => hl c (List.mem_cons_of_mem _ hc))
    have hx := hl x (List.mem_cons_self _ _)
    refine ⟨?_, ?_⟩
    · simp [List.takeWhile_cons, hx, h1]
    · simp [List.dropWhile_cons, hx, h2]

theorem parseNumBody_nat (n : Nat) (rest : Str) (hsafe : numSafe rest) :
    parseNumBody (natLit n ++ rest) = some (.jint (Int.ofNat n), rest) := by
  obtain ⟨ht, hd⟩ := takeWhile_append_all Char.isDigit rest
    (fun c hc => (hsafe c hc).1) (natLit n) natLit_all_digit
  have hdot : ¬ rest.head? = some '.' := fun hcon => (hsafe '.' hcon).2 rfl
  simp only [parseNumBody, ht, hd, if_neg (natLit_ne_nil n), if_neg hdot,
    digitsVal_natLit]

theorem natLit_head_digit (n : Nat) : ∀ c, (natLit n).head? = some c → c.isDigit = true := by
  cases hl : natLit n with
  | nil => exact absurd hl (natLit_ne_nil n)
  | cons a l =>
    intro c hc
    obtain rfl : a = c := Option.some.inj hc
    exact natLit_all_digit a (by rw [hl]; exact List.mem_cons_self _ _)

theorem parseNum_jint (n : Int) (rest : Str) (hsafe : numSafe rest) :
    parseNum (jintStr n ++ rest) = some (.jint n, rest) := by
  by_cases hneg : n < 0
  · rw [jintStr, if_pos hneg, List.cons_append, parseNum]
    rw [if_pos (show ('-' :: (natLit n.natAbs ++ rest)).head? = some '-' from rfl)]
    simp only [List.tail_cons]
    rw [parseNumBody_nat _ _ hsafe]
    simp only [Option.map_some', negJson]
    rw [show -(Int.ofNat n.natAbs) = n from by
      rw [Int.ofNat_eq_natCast, Int.natCast_natAbs, abs_of_neg hneg, neg_neg]]
  · rw [jintStr, if_neg hneg, parseNum]
    have hh : ¬ (natLit n.toNat ++ rest).head? = some '-' := by
      cases hl : natLit n.toNat with
      | nil => exact absurd hl (natLit_ne_nil _)
      | cons a l =>
        intro hcon
        rw [List.cons_append, List.head?_cons] at hcon
        obtain rfl := Option.some.inj hcon
        have := natLit_head_digit n.toNat '-' (by rw [hl]; rfl)
        exact absurd this (by decide)
    rw [if_neg hh, parseNumBody_nat _ _ hsafe]
    rw [show Int.ofNat n.toNat = n from by
      rw [Int.ofNat_eq_natCast]
      exact Int.toNat_of_nonneg (not_lt.mp hneg)]

theorem digitsVal_twoDigits {m : Nat} (h : m < 100) : digitsVal (twoDigits m) = m := by
  have h1 := (digitCh_props (show m / 10 < 10 by omega)).2.2.2.2.2.2
  have h2 := (digitCh_props (show m % 10 < 10 by omega)).2.2.2.2.2.2
  simp [twoDigits, digitsVal, h1, h2]
  omega

theorem twoDigits_all_digit (m : Nat) (h : m < 100) : ∀ c ∈ twoDigits m, c.isDigit = true := by
  intro c hc
  rcases List.mem_cons.mp hc with rfl | hc2
  · exact (digitCh_props (show m / 10 < 10 by omega)).1
  · rcases List.mem_cons.mp hc2 with rfl | hc3
    · exact (digitCh_props (show m % 10 < 10 by omega)).1
    · simp at hc3

theorem parseNumBody_centi_core (k : Nat) (rest : Str) (hsafe : numSafe rest) :
    parseNumBody (natLit (k / 100) ++ '.' :: (twoDigits (k % 100) ++ rest)) =
      some (.jnum ((k : ℚ) / 100), rest) := by
  obtain ⟨ht, hd⟩ := takeWhile_append_all Char.isDigit ('.' :: (twoDigits (k % 100) ++ rest))
    (fun c hc => by
      obtain rfl := Option.some.inj hc
      decide)
    (natLit (k / 100)) natLit_all_digit
  obtain ⟨ht2, hd2⟩ := takeWhile_append_all Char.isDigit rest
    (fun c hc => (hsafe c hc).1) (twoDigits (k % 100))
    (twoDigits_all_digit _ (Nat.mod_lt _ (by norm_num)))
  simp only [parseNumBody, ht, hd, if_neg (natLit_ne_nil (k / 100)), List.head?_cons,
    List.tail_cons]
  simp only [if_true]
  simp only [ht2, hd2]
  rw [if_neg (show ¬ twoDigits (k % 100) = [] by simp [twoDigits])]
  rw [digitsVal_natLit, digitsVal_twoDigits (Nat.mod_lt _ (by norm_num))]
  have hlen : (twoDigits (k % 100)).length = 2 := rfl
  rw [hlen]
  have hval : ((k / 100 : Nat) : ℚ) + ((k % 100 : Nat) : ℚ) / ((10 : ℚ) ^ 2) =
      (k : ℚ) / 100 := by
    have h := Nat.div_add_mod k 100
    have hcast : ((k : ℚ)) = 100 * ((k / 100 : Nat) : ℚ) + ((k % 100 : Nat) : ℚ) := by
      exact_mod_cast h.symm
    rw [hcast]
    ring
  rw [hval]

theorem centi_val {q : ℚ} (hden : q.den ∣ 100) :
    ((q.num * (100 / (q.den : Int)) : Int) : ℚ) / 100 = q := by
  have hd0 : (q.den : ℚ) ≠ 0 := by
    exact_mod_cast q.den_nz
  have hdd : (q.den : Int) ∣ 100 := by exact_mod_cast hden
  have h100 : (100 / (q.den : Int)) * (q.den : Int) = 100 := Int.ediv_mul_cancel hdd
  have hq : ((100 / (q.den : Int) : Int) : ℚ) * (q.den : ℚ) = 100 := by
    exact_mod_cast congrArg (fun z : Int => (z : ℚ)) h100
  have hnum : (q.num : ℚ) = q * (q.den : ℚ) := (div_eq_iff hd0).mp (Rat.num_div_den q)
  push_cast
  rw [div_eq_iff (by norm_num : (100 : ℚ) ≠ 0), hnum]
  calc q * (q.den : ℚ) * ((100 / (q.den : Int) : Int) : ℚ) =
      q * (((100 / (q.den : Int) : Int) : ℚ) * (q.den : ℚ)) := by ring
    _ = q * 100 := by rw [hq]

theorem parseNum_centiStr (q : ℚ) (hden : q.den ∣ 100) (rest : Str) (hsafe : numSafe rest) :
    parseNum (centiStr q ++ rest) = some (.jnum q, rest) := by
  have hval := centi_val hden
  set n : Int := q.num * (100 / (q.den : Int)) with hn
  have hcore := parseNumBody_centi_core n.natAbs rest hsafe
  by_cases hneg : n < 0
  · have hshape : centiStr q ++ rest =
        '-' :: (natLit (n.natAbs / 100) ++ '.' :: (twoDigits (n.natAbs % 100) ++ rest)) := by
      rw [centiStr]
      simp only [← hn, if_pos hneg]
      simp
    rw [hshape, parseNum]
    rw [if_pos (show ('-' :: (natLit (n.natAbs / 100) ++
      '.' :: (twoDigits (n.natAbs % 100) ++ rest))).head? = some '-' from rfl)]
    simp only [List.tail_cons]
    rw [hcore]
    simp only [Option.map_some', negJson]
    have habs : ((n.natAbs : Nat) : ℚ) = -(n : ℚ) := by
      have h2 : ((n.natAbs : Nat) : Int) = -n := by omega
      calc ((n.natAbs : Nat) : ℚ) = (((n.natAbs : Nat) : Int) : ℚ) := by
            rw [Int.cast_natCast]
        _ = ((-n : Int) : ℚ) := by rw [h2]
        _ = -(n : ℚ) := by push_cast; ring
    rw [show -(((n.natAbs : Nat) : ℚ) / 100) = q from by
      rw [habs, ← hval]
      ring]
  · have hshape : centiStr q ++ rest =
        natLit (n.natAbs / 100) ++ '.' :: (twoDigits (n.natAbs % 100) ++ rest) := by
      rw [centiStr]
      simp only [← hn, if_neg hneg]
      simp
    rw [hshape, parseNum]
    have hh : ¬ (natLit (n.natAbs / 100) ++
        '.' :: (twoDigits (n.natAbs % 100) ++ rest)).head? = some '-' := by
      cases hl : natLit (n.natAbs / 100) with
      | nil => exact absurd hl (natLit_ne_nil _)
      | cons a l =>
        intro hcon
        rw [List.cons_append, List.head?_cons] at hcon
        obtain rfl := Option.some.inj hcon
        have := natLit_head_digit (n.natAbs / 100) '-' (by rw [hl]; rfl)
        exact absurd this (by decide)
    rw [if_neg hh, hcore]
    have habs : ((n.natAbs : Nat) : ℚ) = (n : ℚ) := by
      have h2 : ((n.natAbs : Nat) : Int) = n := by omega
      calc ((n.natAbs : Nat) : ℚ) = (((n.natAbs : Nat) : Int) : ℚ) := by
            rw [Int.cast_natCast]
        _ = (n : ℚ) := by rw [h2]
    rw [show (((n.natAbs : Nat) : ℚ) / 100) = q from by
      rw [habs]
      exact hval]

/-! ## Whitespace and dump-shape lemmas (C7) -/

theorem expectStr_append (p rest : Str) : expectStr p (p ++ rest) = some rest := by
  induction p with
  | nil => rfl
  | cons c cs ih => simp [expectStr, ih]

theorem skipWs_cons_ws {c : Char} (s : Str)
    (h : (c = ' ' || c = '\n' || c = '\t' || c = '\r') = true) :
    skipWs (c :: s) = skipWs s := by
  simp only [skipWs, List.dropWhile_cons, h]
  simp

theorem skipWs_cons_not_ws {c : Char} (s : Str)
    (h : (c = ' ' || c = '\n' || c = '\t' || c = '\r') = false) :
    skipWs (c :: s) = c :: s := by
  simp only [skipWs, List.dropWhile_cons, h]
  simp

theorem skipWs_replicate (m : Nat) (s : Str) :
    skipWs (List.replicate m ' ' ++ s) = skipWs s := by
  induction m with
  | zero => rfl
  | succ j ih =>
    rw [List.replicate_succ, List.cons_append, skipWs_cons_ws _ (by decide), ih]

theorem skipWs_indent (lvl : Nat) (s : Str) :
    skipWs ('\n' :: (indentStr lvl ++ s)) = skipWs s := by
  rw [skipWs_cons_ws _ (by decide), indentStr, skipWs_replicate]

theorem parseVal_congr (fuel : Nat) {s t : Str} (h : skipWs s = skipWs t) :
    parseVal fuel s = parseVal fuel t := by
  cases fuel with
  | zero => rfl
  | succ f => rw [parseVal, parseVal, h]

theorem parseItems_congr (fuel : Nat) {s t : Str} (h : skipWs s = skipWs t) :
    parseItems fuel s = parseItems fuel t := by
  cases fuel with
  | zero => rfl
  | succ f => rw [parseItems, parseItems, parseVal_congr f h]

theorem parseMembers_congr (fuel : Nat) {s t : Str} (h : skipWs s = skipWs t) :
    parseMembers fuel s = parseMembers fuel t := by
  cases fuel with
  | zero => rfl
  | succ f => rw [parseMembers, parseMembers, h]

theorem digit_ne {c d : Char} (h : c.isDigit = true) (hd : d.isDigit = false) : c ≠ d := by
  rintro rfl
  rw [h] at hd
  exact absurd hd (by decide)

theorem not_ws_of_digit {c : Char} (h : c.isDigit = true) :
    (c = ' ' || c = '\n' || c = '\t' || c = '\r') = false := by
  have h1 : c ≠ ' ' := by rintro rfl; exact absurd h (by decide)
  have h2 : c ≠ '\n' := by rintro rfl; exact absurd h (by decide)
  have h3 : c ≠ '\t' := by rintro rfl; exact absurd h (by decide)
  have h4 : c ≠ '\r' := by rintro rfl; exact absurd h (by decide)
  simp [h1, h2, h3, h4]

theorem exists_head_jintStr (n : Int) : ∃ c t, jintStr n = c :: t ∧
    (c.isDigit = true ∨ c = '-') := by
  rw [jintStr]
  by_cases hneg : n < 0
  · rw [if_pos hneg]
    exact ⟨'-', _, rfl, Or.inr rfl⟩
  · rw [if_neg hneg]
    cases hl : natLit n.toNat with
    | nil => exact absurd hl (natLit_ne_nil _)
    | cons a l =>
      exact ⟨a, l, rfl, Or.inl (natLit_all_digit a (by rw [hl]; simp))⟩

theorem exists_head_centiStr (q : ℚ) : ∃ c t, centiStr q = c :: t ∧
    (c.isDigit = true ∨ c = '-') := by
  rw [centiStr]
  by_cases hneg : q.num * (100 / (q.den : Int)) < 0
  · rw [if_pos hneg]
    exact ⟨'-', _, rfl, Or.inr rfl⟩
  · rw [if_neg hneg]
    simp only [List.nil_append]
    cases hl : natLit ((q.num * (100 / (q.den : Int))).natAbs / 100) with
    | nil => exact absurd hl (natLit_ne_nil _)
    | cons a l =>
      refine ⟨a, l ++ '.' :: twoDigits ((q.num * (100 / (q.den : Int))).natAbs % 100),
        by rfl, Or.inl ?_⟩
      exact natLit_all_digit a (by rw [hl]; simp)

theorem dumpJson_head (lvl : Nat) (v : Json) : ∃ c t, dumpJson lvl v = c :: t ∧
    (c = ' ' || c = '\n' || c = '\t' || c = '\r') = false ∧
    c ≠ ']' ∧ c ≠ '\x7d' := by
  cases v with
  | jnull => exact ⟨'n', _, rfl, by decide, by decide, by decide⟩
  | jbool b =>
    cases b
    · exact ⟨'f', _, rfl, by decide⟩
    · exact ⟨'t', _, rfl, by decide⟩
  | jint n =>
    obtain ⟨c, t, hl, hdd⟩ := exists_head_jintStr n
    refine ⟨c, t, by rw [dumpJson, hl], ?_, ?_, ?_⟩
    · rcases hdd with hd | rfl
      · exact not_ws_of_digit hd
      · decide
    · rcases hdd with hd | rfl
      · exact digit_ne hd (by decide)
      · decide
    · rcases hdd with hd | rfl
      · exact digit_ne hd (by decide)
      · decide
  | jnum q =>
    obtain ⟨c, t, hl, hdd⟩ := exists_head_centiStr q
    refine ⟨c, t, by rw [dumpJson, hl], ?_, ?_, ?_⟩
    · rcases hdd with hd | rfl
      · exact not_ws_of_digit hd
      · decide
    · rcases hdd with hd | rfl
      · exact digit_ne hd (by decide)
      · decide
    · rcases hdd with hd | rfl
      · exact digit_ne hd (by decide)
      · decide
  | jstr s => exact ⟨'"', _, rfl, by decide, by decide, by decide⟩
  | jarr items =>
    cases items with
    | nil => exact ⟨'[', _, rfl, by decide, by decide, by decide⟩
    | cons x xs => exact ⟨'[', _, rfl, by decide, by decide, by decide⟩
  | jobj mem =>
    cases mem with
    | nil => exact ⟨'\x7b', _, rfl, by decide, by decide, by decide⟩
    | cons k v kvs => exact ⟨'\x7b', _, rfl, by decide, by decide, by decide⟩

theorem jsize_pos (v : Json) : 1 ≤ jsize v := by
  cases v with
  | jarr items =>
    cases items with
    | nil => exact le_refl 1
    | cons x xs => rw [jsize]; omega
  | jobj mem =>
    cases mem with
    | nil => exact le_refl 1
    | cons k v kvs => rw [jsize]; omega
  | jnull => exact le_refl 1
  | jbool b => exact le_refl 1
  | jint n => exact le_refl 1
  | jnum q => exact le_refl 1
  | jstr s => exact le_refl 1

/-! ## Dispatch lemmas for the value parser (C7) -/

theorem parseVal_quote (f : Nat) (z : Str) :
    parseVal (f + 1) ('"' :: z) =
      (parseStrBody z).map (fun p => (Json.jstr p.1, p.2)) := by
  rw [parseVal, skipWs_cons_not_ws _ (by decide)]
  rfl

theorem parseVal_brace (f : Nat) (z : Str) :
    parseVal (f + 1) ('\x7b' :: z) =
      if (skipWs z).head? = some '\x7d' then some (Json.jobj .nil, (skipWs z).tail)
      else (parseMembers f (skipWs z)).map (fun p => (Json.jobj p.1, p.2)) := by
  rw [parseVal, skipWs_cons_not_ws _ (by decide)]
  rfl

theorem parseVal_brk (f : Nat) (z : Str) :
    parseVal (f + 1) ('[' :: z) =
      if (skipWs z).head? = some ']' then some (Json.jarr .nil, (skipWs z).tail)
      else (parseItems f (skipWs z)).map (fun p => (Json.jarr p.1, p.2)) := by
  rw [parseVal, skipWs_cons_not_ws _ (by decide)]
  rfl

theorem parseVal_t (f : Nat) (z : Str) :
    parseVal (f + 1) ('t' :: z) =
      (expectStr (strL "rue") z).map (fun r => (Json.jbool true, r)) := by
  rw [parseVal, skipWs_cons_not_ws _ (by decide)]
  rfl

theorem parseVal_f (f : Nat) (z : Str) :
    parseVal (f + 1) ('f' :: z) =
      (expectStr (strL "alse") z).map (fun r => (Json.jbool false, r)) := by
  rw [parseVal, skipWs_cons_not_ws _ (by decide)]
  rfl

theorem parseVal_n (f : Nat) (z : Str) :
    parseVal (f + 1) ('n' :: z) =
      (expectStr (strL "ull") z).map (fun r => (Json.jnull, r)) := by
  rw [parseVal, skipWs_cons_not_ws _ (by decide)]
  rfl

theorem parseVal_default (f : Nat) (c : Char) (z : Str)
    (hws : (c = ' ' || c = '\n' || c = '\t' || c = '\r') = false)
    (h1 : ¬c = '"') (h2 : ¬c = '\x7b') (h3 : ¬c = '[') (h4 : ¬c = 't')
    (h5 : ¬c = 'f') (h6 : ¬c = 'n') :
    parseVal (f + 1) (c :: z) = parseNum (c :: z) := by
  rw [parseVal, skipWs_cons_not_ws _ hws]
  simp only [if_neg h1, if_neg h2, if_neg h3, if_neg h4, if_neg h5, if_neg h6]

theorem numSafe_cons {c : Char} {s : Str} (h1 : c.isDigit = false) (h2 : c ≠ '.') :
    numSafe (c :: s) := by
  intro d hd
  obtain rfl := Option.some.inj hd
  exact ⟨h1, h2⟩

theorem numSafe_items_tail (lvl m : Nat) (xs : JsonArr) (rest : Str) :
    numSafe (dumpItems lvl xs ++ ('\n' :: (indentStr m ++ (']' :: rest)))) := by
  cases xs with
  | nil =>
    rw [dumpItems, List.nil_append]
    exact numSafe_cons (by decide) (by decide)
  | cons y ys =>
    rw [dumpItems, List.cons_append]
    exact numSafe_cons (by decide) (by decide)

theorem numSafe_members_tail (lvl m : Nat) (kvs : JsonObj) (rest : Str) :
    numSafe (dumpMembers lvl kvs ++ ('\n' :: (indentStr m ++ ('\x7d' :: rest)))) := by
  cases kvs with
  | nil =>
    rw [dumpMembers, List.nil_append]
    exact numSafe_cons (by decide) (by decide)
  | cons k v tl =>
    rw [dumpMembers, List.cons_append]
    exact numSafe_cons (by decide) (by decide)

/-! ## The serializer-parser round trip (C7, main induction) -/

theorem parse_dump (fuel : Nat) :
    (∀ v lvl rest, jsize v ≤ fuel → centiJ v = true → numSafe rest →
      parseVal fuel (dumpJson lvl v ++ rest) = some (v, rest)) ∧
    (∀ x xs lvl m rest, 1 + jsize x + isize xs ≤ fuel → centiJ x = true →
      centiArr xs = true →
      parseItems fuel (dumpJson lvl x ++ (dumpItems lvl xs ++
        ('\n' :: (indentStr m ++ (']' :: rest))))) = some (JsonArr.cons x xs, rest)) ∧
    (∀ k v kvs lvl m rest, 1 + jsize v + msize kvs ≤ fuel → centiJ v = true →
      centiObj kvs = true →
      parseMembers fuel (dumpStr k ++ (':' :: ' ' :: (dumpJson lvl v ++
        (dumpMembers lvl kvs ++ ('\n' :: (indentStr m ++ ('\x7d' :: rest))))))) =
        some (JsonObj.cons k v kvs, rest)) := by
  induction fuel with
  | zero =>
    refine ⟨fun v lvl rest hs _ _ => absurd hs ?_,
      fun x xs lvl m rest hs _ _ => absurd hs (by have := jsize_pos x; omega),
      fun k v kvs lvl m rest hs _ _ => absurd hs (by have := jsize_pos v; omega)⟩
    have := jsize_pos v
    omega
  | succ f ih =>
    obtain ⟨ihV, ihI, ihM⟩ := ih
    refine ⟨?_, ?_, ?_⟩
    · intro v lvl rest hs hc hsafe
      cases v with
      | jnull =>
        rw [dumpJson, show strL "null" ++ rest = 'n' :: (strL "ull" ++ rest) from rfl,
          parseVal_n, expectStr_append]
        rfl
      | jbool b =>
        cases b with
        | true =>
          rw [dumpJson, show strL "true" ++ rest = 't' :: (strL "rue" ++ rest) from rfl,
            parseVal_t, expectStr_append]
          rfl
        | false =>
          rw [dumpJson, show strL "false" ++ rest = 'f' :: (strL "alse" ++ rest) from rfl,
            parseVal_f, expectStr_append]
          rfl
      | jstr s =>
        rw [dumpJson,
          show dumpStr s ++ rest = '"' :: (s.flatMap escapeChar ++ '"' :: rest) from by
            rw [dumpStr]
            simp,
          parseVal_quote, parseStrBody_flatMap]
        rfl
      | jint n =>
        rw [dumpJson]
        obtain ⟨c, t, hl, hdd⟩ := exists_head_jintStr n
        have hws : (c = ' ' || c = '\n' || c = '\t' || c = '\r') = false := by
          rcases hdd with hd | rfl
          · exact not_ws_of_digit hd
          · decide
        obtain ⟨h1, h2, h3, h4, h5, h6⟩ :
            ¬c = '"' ∧ ¬c = '\x7b' ∧ ¬c = '[' ∧ ¬c = 't' ∧ ¬c = 'f' ∧ ¬c = 'n' := by
          rcases hdd with hd | rfl
          · exact ⟨digit_ne hd (by decide), digit_ne hd (by decide),
              digit_ne hd (by decide), digit_ne hd (by decide),
              digit_ne hd (by decide), digit_ne hd (by decide)⟩
          · exact ⟨by decide, by decide, by decide, by decide, by decide, by decide⟩
        rw [hl, List.cons_append, parseVal_default f c _ hws h1 h2 h3 h4 h5 h6,
          ← List.cons_append, ← hl, parseNum_jint n rest hsafe]
      | jnum q =>
        rw [dumpJson]
        have hden : q.den ∣ 100 := by
          rw [centiJ] at hc
          exact of_decide_eq_true hc
        obtain ⟨c, t, hl, hdd⟩ := exists_head_centiStr q
        have hws : (c = ' ' || c = '\n' || c = '\t' || c = '\r') = false := by
          rcases hdd with hd | rfl
          · exact not_ws_of_digit hd
          · decide
        obtain ⟨h1, h2, h3, h4, h5, h6⟩ :
            ¬c = '"' ∧ ¬c = '\x7b' ∧ ¬c = '[' ∧ ¬c = 't' ∧ ¬c = 'f' ∧ ¬c = 'n' := by
          rcases hdd with hd | rfl
          · exact ⟨digit_ne hd (by decide), digit_ne hd (by decide),
              digit_ne hd (by decide), digit_ne hd (by decide),
              digit_ne hd (by decide), digit_ne hd (by decide)⟩
          · exact ⟨by decide, by decide, by decide, by decide, by decide, by decide⟩
        rw [hl, List.cons_append, parseVal_default f c _ hws h1 h2 h3 h4 h5 h6,
          ← List.cons_append, ← hl, parseNum_centiStr q hden rest hsafe]
      | jarr items =>
        cases items with
        | nil =>
          rw [dumpJson, show strL "[]" ++ rest = '[' :: (']' :: rest) from rfl,
            parseVal_brk, skipWs_cons_not_ws _ (by decide)]
          simp
        | cons x xs =>
          rw [dumpJson]
          simp only [List.cons_append, List.append_assoc, List.singleton_append,
            List.nil_append]
          rw [parseVal_brk]
          obtain ⟨ch, ct, hxl, hxws, hxne, _⟩ := dumpJson_head (lvl + 1) x
          have hskip : skipWs ('\n' :: (indentStr (lvl + 1) ++ (dumpJson (lvl + 1) x ++
              (dumpItems (lvl + 1) xs ++ ('\n' :: (indentStr lvl ++ (']' :: rest))))))) =
              dumpJson (lvl + 1) x ++ (dumpItems (lvl + 1) xs ++
                ('\n' :: (indentStr lvl ++ (']' :: rest)))) := by
            rw [skipWs_indent, hxl, List.cons_append, skipWs_cons_not_ws _ hxws,
              ← List.cons_append, ← hxl]
          rw [hskip]
          have hhead : ¬ (dumpJson (lvl + 1) x ++ (dumpItems (lvl + 1) xs ++
              ('\n' :: (indentStr lvl ++ (']' :: rest))))).head? = some ']' := by
            rw [hxl, List.cons_append, List.head?_cons]
            intro hcon
            exact hxne (Option.some.inj hcon)
          rw [if_neg hhead]
          simp only [jsize] at hs
          rw [centiJ, centiArr, Bool.and_eq_true] at hc
          obtain ⟨hcx, hcxs⟩ := hc
          rw [ihI x xs (lvl + 1) lvl rest (by omega) hcx hcxs]
          rfl
      | jobj mem =>
        cases mem with
        | nil =>
          rw [dumpJson, show (['\x7b', '\x7d'] : Str) ++ rest =
            '\x7b' :: ('\x7d' :: rest) from rfl,
            parseVal_brace, skipWs_cons_not_ws _ (by decide)]
          simp
        | cons k v kvs =>
          rw [dumpJson]
          simp only [List.cons_append, List.append_assoc, List.singleton_append,
            List.nil_append]
          rw [parseVal_brace]
          have hqshape : dumpStr k ++ (':' :: ' ' :: (dumpJson (lvl + 1) v ++
              (dumpMembers (lvl + 1) kvs ++ ('\n' :: (indentStr lvl ++ ('\x7d' :: rest)))))) =
              '"' :: (k.flatMap escapeChar ++ '"' :: (':' :: ' ' :: (dumpJson (lvl + 1) v ++
                (dumpMembers (lvl + 1) kvs ++ ('\n' :: (indentStr lvl ++
                  ('\x7d' :: rest))))))) := by
            rw [dumpStr]
            simp
          have hskip : skipWs ('\n' :: (indentStr (lvl + 1) ++ (dumpStr k ++
              (':' :: ' ' :: (dumpJson (lvl + 1) v ++ (dumpMembers (lvl + 1) kvs ++
                ('\n' :: (indentStr lvl ++ ('\x7d' :: rest))))))))) =
              dumpStr k ++ (':' :: ' ' :: (dumpJson (lvl + 1) v ++
                (dumpMembers (lvl + 1) kvs ++ ('\n' :: (indentStr lvl ++
                  ('\x7d' :: rest)))))) := by
            rw [skipWs_indent, hqshape, skipWs_cons_not_ws _ (by decide), ← hqshape]
          rw [hskip]
          have hhead : ¬ (dumpStr k ++ (':' :: ' ' :: (dumpJson (lvl + 1) v ++
              (dumpMembers (lvl + 1) kvs ++ ('\n' :: (indentStr lvl ++
                ('\x7d' :: rest))))))).head? = some '\x7d' := by
            rw [hqshape, List.head?_cons]
            intro hcon
            exact absurd (Option.some.inj hcon) (by decide)
          rw [if_neg hhead]
          simp only [jsize] at hs
          rw [centiJ, centiObj, Bool.and_eq_true] at hc
          obtain ⟨hcv, hckvs⟩ := hc
          rw [ihM k v kvs (lvl + 1) lvl rest (by omega) hcv hckvs]
          rfl
    · intro x xs lvl m rest hs hcx hcxs
      rw [parseItems]
      rw [ihV x lvl _ (by have := jsize_pos x; omega) hcx
        (numSafe_items_tail lvl m xs rest)]
      simp only [Option.bind_eq_bind, Option.some_bind]
      cases xs with
      | nil =>
        simp only [dumpItems, List.nil_append]
        rw [skipWs_indent, skipWs_cons_not_ws _ (by decide)]
        rw [if_neg (by intro hcon; exact absurd (Option.some.inj hcon) (by decide))]
        simp only [List.head?_cons, if_true]
        rfl
      | cons y ys =>
        simp only [dumpItems, List.cons_append, List.append_assoc]
        rw [skipWs_cons_not_ws _ (by decide)]
        simp only [List.head?_cons, if_true, List.tail_cons]
        rw [parseItems_congr f (skipWs_indent lvl _)]
        rw [centiArr, Bool.and_eq_true] at hcxs
        obtain ⟨hcy, hcys⟩ := hcxs
        simp only [isize] at hs
        rw [ihI y ys lvl m rest (by have := jsize_pos x; omega) hcy hcys]
        rfl
    · intro k v kvs lvl m rest hs hcv hckvs
      rw [parseMembers]
      have hqshape : dumpStr k ++ (':' :: ' ' :: (dumpJson lvl v ++
          (dumpMembers lvl kvs ++ ('\n' :: (indentStr m ++ ('\x7d' :: rest)))))) =
          '"' :: (k.flatMap escapeChar ++ '"' :: (':' :: ' ' :: (dumpJson lvl v ++
            (dumpMembers lvl kvs ++ ('\n' :: (indentStr m ++ ('\x7d' :: rest))))))) := by
        rw [dumpStr]
        simp
      rw [hqshape, skipWs_cons_not_ws _ (by decide)]
      simp only [List.head?_cons, if_true, List.tail_cons]
      rw [parseStrBody_flatMap]
      simp only [Option.bind_eq_bind, Option.some_bind]
      rw [skipWs_cons_not_ws _ (by decide)]
      simp only [List.head?_cons, if_true, List.tail_cons]
      rw [parseVal_congr f (skipWs_cons_ws _ (by decide)),
        ihV v lvl _ (by have := jsize_pos v; omega) hcv
          (numSafe_members_tail lvl m kvs rest)]
      simp only [Option.bind_eq_bind, Option.some_bind]
      cases kvs with
      | nil =>
        simp only [dumpMembers, List.nil_append]
        rw [skipWs_indent, skipWs_cons_not_ws _ (by decide)]
        rw [if_neg (by intro hcon; exact absurd (Option.some.inj hcon) (by decide))]
        simp only [List.head?_cons, if_true]
        rfl
      | cons k2 v2 tl =>
        simp only [dumpMembers, List.cons_append, List.append_assoc]
        rw [skipWs_cons_not_ws _ (by decide)]
        simp only [List.head?_cons, if_true, List.tail_cons]
        rw [parseMembers_congr f (skipWs_indent lvl _)]
        rw [centiObj, Bool.and_eq_true] at hckvs
        obtain ⟨hc2, hctl⟩ := hckvs
        simp only [msize] at hs
        rw [ihM k2 v2 tl lvl m rest (by have := jsize_pos v; omega) hc2 hctl]
        rfl

/-! ## Fuel adequacy: the serialized text is at least as long as the
nesting-weighted size of the value, so length-based fuel suffices. -/

mutual
theorem jsize_le_dump : (v : Json) → (lvl : Nat) → jsize v ≤ (dumpJson lvl v).length
  | .jnull, lvl => by
    show (1 : Nat) ≤ (strL "null").length
    decide
  | .jbool true, lvl => by
    show (1 : Nat) ≤ (strL "true").length
    decide
  | .jbool false, lvl => by
    show (1 : Nat) ≤ (strL "false").length
    decide
  | .jint n, lvl => by
    obtain ⟨c, t, hl, _⟩ := exists_head_jintStr n
    show (1 : Nat) ≤ (jintStr n).length
    rw [hl, List.length_cons]
    omega
  | .jnum q, lvl => by
    obtain ⟨c, t, hl, _⟩ := exists_head_centiStr q
    show (1 : Nat) ≤ (centiStr q).length
    rw [hl, List.length_cons]
    omega
  | .jstr s, lvl => by
    show (1 : Nat) ≤ (dumpStr s).length
    rw [dumpStr]
    simp only [List.length_append, List.length_cons]
    omega
  | .jarr .nil, lvl => by
    show (1 : Nat) ≤ (strL "[]").length
    decide
  | .jarr (.cons x xs), lvl => by
    have hx := jsize_le_dump x (lvl + 1)
    have hxs := isize_le_dump xs (lvl + 1)
    rw [jsize, dumpJson]
    simp only [List.length_cons, List.length_append]
    omega
  | .jobj .nil, lvl => by
    show (1 : Nat) ≤ (['\x7b', '\x7d'] : Str).length
    decide
  | .jobj (.cons k v kvs), lvl => by
    have hv := jsize_le_dump v (lvl + 1)
    have hkvs := msize_le_dump kvs (lvl + 1)
    rw [jsize, dumpJson]
    simp only [List.length_cons, List.length_append]
    omega
termination_by structural v _ => v

theorem isize_le_dump : (xs : JsonArr) → (lvl : Nat) →
    isize xs ≤ (dumpItems lvl xs).length
  | .nil, lvl => by
    rw [isize]
    exact Nat.zero_le _
  | .cons x xs, lvl => by
    have hx := jsize_le_dump x lvl
    have hxs := isize_le_dump xs lvl
    rw [isize, dumpItems]
    simp only [List.length_cons, List.length_append]
    omega
termination_by structural xs _ => xs

theorem msize_le_dump : (kvs : JsonObj) → (lvl : Nat) →
    msize kvs ≤ (dumpMembers lvl kvs).length
  | .nil, lvl => by
    rw [msize]
    exact Nat.zero_le _
  | .cons k v kvs, lvl => by
    have hv := jsize_le_dump v lvl
    have hkvs := msize_le_dump kvs lvl
    rw [msize, dumpMembers]
    simp only [List.length_cons, List.length_append]
    omega
termination_by structural kvs _ => kvs
end

theorem numSafe_nil : numSafe [] := by
  intro c h
  exact Option.noConfusion h

theorem parseVal_dump (v : Json) (fuel : Nat) (hf : jsize v ≤ fuel)
    (hc : centiJ v = true) : parseVal fuel (dumpJson 0 v) = some (v, []) := by
  have h := (parse_dump fuel).1 v 0 [] hf hc numSafe_nil
  rwa [List.append_nil] at h

theorem json_loads_dump (v : Json) (hc : centiJ v = true) :
    json_loads (dumpJson 0 v) = some v := by
  rw [json_loads,
    parseVal_dump v ((dumpJson 0 v).length + 1)
      (le_trans (jsize_le_dump v 0) (Nat.le_succ _)) hc]
  rfl

/-! ## The modelled reader inverts the writer exactly -/

theorem pageOfJson_inv (p : PageResult) : pageOfJson (jsonOfPage p) = some p := by
  rw [jsonOfPage, pageOfJson, if_pos ⟨rfl, rfl, rfl⟩]

theorem pagesOfJson_inv (ps : List PageResult) :
    pagesOfJson (jsonArrOfPages ps) = some ps := by
  induction ps with
  | nil => rfl
  | cons p ps ih =>
    rw [jsonArrOfPages, pagesOfJson, pageOfJson_inv, ih]
    rfl

theorem resultOfJson_inv (r : PipelineResult) :
    resultOfJson (jsonOfResult r) = some r := by
  rw [jsonOfResult, resultOfJson, if_pos ⟨rfl, rfl, rfl, rfl, rfl, rfl⟩,
    pagesOfJson_inv]
  rfl

/-! ## All serialized floats are centi-multiples when the per-page
processing times are (as `round(elapsed, 2)` guarantees). -/

theorem centiJ_page (p : PageResult) (hp : p.processing_time_seconds.den ∣ 100) :
    centiJ (jsonOfPage p) = true := by
  rw [jsonOfPage, centiJ, centiObj, centiObj, centiObj, Bool.and_eq_true,
    Bool.and_eq_true, Bool.and_eq_true]
  exact ⟨rfl, rfl, by rw [centiJ]; exact decide_eq_true hp, rfl⟩

theorem centiArr_pages (ps : List PageResult)
    (h : ∀ p ∈ ps, p.processing_time_seconds.den ∣ 100) :
    centiArr (jsonArrOfPages ps) = true := by
  induction ps with
  | nil => rfl
  | cons p ps ih =>
    rw [jsonArrOfPages, centiArr, Bool.and_eq_true]
    exact ⟨centiJ_page p (h p (List.mem_cons_self p ps)),
      ih (fun q hq => h q (List.mem_cons_of_mem _ hq))⟩

theorem centiJ_result (r : PipelineResult)
    (h : ∀ p ∈ r.processed_pages, p.processing_time_seconds.den ∣ 100) :
    centiJ (jsonOfResult r) = true := by
  rw [jsonOfResult, centiJ, centiObj, centiObj, centiObj, centiObj, centiObj,
    centiObj, Bool.and_eq_true, Bool.and_eq_true, Bool.and_eq_true,
    Bool.and_eq_true, Bool.and_eq_true, Bool.and_eq_true]
  refine ⟨rfl, rfl, rfl, rfl, ?_, rfl, rfl⟩
  rw [centiJ]
  exact centiArr_pages r.processed_pages h

/-- **C7**: for every `PipelineResult` whose per-page processing times are
multiples of 1/100 (as `round(elapsed, 2)` produces), the text written by
`save_json` — `json.dumps(asdict(result), ensure_ascii=False, indent=2)` —
parses back to exactly the structured document that was serialized, and
reading the fields of that document yields a `PipelineResult` equal to the
original: in particular `processed_pages` has the same length, the same
order, and character-for-character identical transcription text, with all
fields present.  Moreover every character of code point ≥ 32 other than
`"` and `\` (in particular every non-ASCII character) is written verbatim,
unescaped, in the output (`ensure_ascii=False`). -/
theorem C7_roundtrip (r : PipelineResult)
    (h : ∀ p ∈ r.processed_pages, p.processing_time_seconds.den ∣ 100) :
    json_loads (save_json_content r) = some (jsonOfResult r) ∧
    resultOfJson (jsonOfResult r) = some r ∧
    (∀ c : Char, 32 ≤ c.toNat → c ≠ '"' → c ≠ '\\' → escapeChar c = [c]) := by
  refine ⟨?_, resultOfJson_inv r, fun c h32 hq hb => escapeChar_eq_self h32 hq hb⟩
  rw [save_json_content]
  exact json_loads_dump (jsonOfResult r) (centiJ_result r h)

/-- Witness for C7 at `sampleResult`: a concrete two-page result containing
non-ASCII Spanish text and a processing time of 3.25 seconds. -/
theorem C7_roundtrip_witness :
    (∀ p ∈ sampleResult.processed_pages, p.processing_time_seconds.den ∣ 100) ∧
    (json_loads (save_json_content sampleResult) = some (jsonOfResult sampleResult) ∧
      resultOfJson (jsonOfResult sampleResult) = some sampleResult ∧
      (∀ c : Char, 32 ≤ c.toNat → c ≠ '"' → c ≠ '\\' → escapeChar c = [c])) :=
  ⟨by decide, C7_roundtrip sampleResult (by decide)⟩

end TausaOCR
